import Mathlib

set_option maxRecDepth 40000

/-!
Verification of the scrapeWithJs content-acquisition and extraction pipeline.

JavaScript strings are modelled as `List Char`.  Each definition in this file
is a shallow embedding of one function of the repository:

* `needBrowserFallback`       — scrape.js, acquisition strategy selector
* `retryFetch`                — src/converters.js (utils), retrying fetcher
* `removeDuplicates`          — the simplified DuplicateRemover (duplicates.js)
* `splitIntoSections`         — the enhanced DuplicateRemover's section splitter
* `performRadialSearch`       — src/radialsearch.js, radial fragment extractor
* `cleanSvgContent`           — src/converters.js, SVG stripper
* `processLinksFromContent`   — src/linkprocessors.js, bounded link expansion
* `incPending` / `decPending` — src/converters.js, applyJsdomPolyfills counter

The DOM engine (jsdom) is a collaborator: documents are modelled as trees of
elements and text nodes, with `outerHTML` serialization escaping `&`, `<`, `>`
and non-breaking spaces in text, as the HTML serializer does.  Element tag
names are stored the way the DOM reports `tagName` (upper case for HTML
elements such as `BODY`, `DIV`; lower case for SVG-namespace elements such as
`svg`), and serialization lower-cases them as jsdom does.
-/

namespace Scrape

/-! ### JavaScript string primitives -/

/-- JS `String.prototype.toLowerCase`, restricted to the ASCII mapping of
`Char.toLower`. -/
def lowerL (s : List Char) : List Char := s.map Char.toLower

/-- JS `String.prototype.toUpperCase`, restricted to the ASCII mapping of
`Char.toUpper`. -/
def upperL (s : List Char) : List Char := s.map Char.toUpper

/-- JS `haystack.includes(needle)`: contiguous substring test. -/
def includesL (s pat : List Char) : Bool := decide (pat <:+: s)

/-- The JS whitespace class recognized by `String.prototype.trim`
(space, tab, LF, CR, VT, FF, NBSP, BOM, LS, PS). -/
def isJsWS (c : Char) : Bool :=
  c = ' ' || c = '\t' || c = '\n' || c = '\r' || c = Char.ofNat 11 ||
  c = Char.ofNat 12 || c = Char.ofNat 160 || c = Char.ofNat 0xFEFF ||
  c = Char.ofNat 0x2028 || c = Char.ofNat 0x2029

/-- Leading-whitespace removal (`trimStart`). -/
def trimStartL (s : List Char) : List Char := s.dropWhile isJsWS

/-- Trailing-whitespace removal (`trimEnd`). -/
def trimEndL (s : List Char) : List Char := (s.reverse.dropWhile isJsWS).reverse

/-- JS `String.prototype.trim`. -/
def jsTrim (s : List Char) : List Char := trimEndL (trimStartL s)

/-- JS `content.split('\n')`. -/
def splitNL (s : List Char) : List (List Char) := s.splitOn '\n'

/-- JS `lines.join('\n')`. -/
def joinNL : List (List Char) → List Char
  | [] => []
  | [l] => l
  | l :: ls => l ++ '\n' :: joinNL ls

/-- Count of non-overlapping occurrences of `pat` found by a left-to-right
scan (the semantics of a global regex scan over a literal pattern).  Fuel is
the length of the string; each step consumes at least one character. -/
def countOccurGo (pat : List Char) : Nat → List Char → Nat
  | 0, _ => 0
  | fuel + 1, s =>
    if s = [] then 0
    else if pat.isPrefixOf s then 1 + countOccurGo pat fuel (s.drop pat.length)
    else countOccurGo pat fuel s.tail

/-- Count of non-overlapping occurrences of a nonempty literal `pat` in `s`. -/
def countOccur (pat s : List Char) : Nat := countOccurGo pat s.length s

/-! ### Acquisition strategy selector — `needBrowserFallback` (scrape.js)

The card regex `/class=["'][^"']*(col-md-4|vehicle-card|product-card|item-card)[^"']*["']/gi`
is compiled to a scan: a match starts at a position where the text reads
`class=` (case-insensitively) followed by a quote; the quoted run extends to
the next quote character (`[^"']*` cannot cross a quote), so a match exists
exactly when that run contains one of the four card words case-insensitively,
and the match ends just after the closing quote.  The global scan resumes
after each match and otherwise advances one character. -/

/-- Quote characters recognized by the card-class regex. -/
def isQuote (c : Char) : Bool := c = '"' || c = Char.ofNat 39

/-- The repeating-card class-name patterns of `needBrowserFallback`. -/
def cardClassWords : List (List Char) :=
  ["col-md-4".toList, "vehicle-card".toList, "product-card".toList, "item-card".toList]

/-- If the card-class regex matches at the head of `s`, the length of the
(leftmost, greedy) match; otherwise `none`. -/
def cardMatchAt (s : List Char) : Option Nat :=
  if lowerL (s.take 6) = "class=".toList then
    match s.drop 6 with
    | q :: rest =>
      if isQuote q then
        let run := rest.takeWhile (fun c => !isQuote c)
        let rest2 := rest.dropWhile (fun c => !isQuote c)
        if rest2 ≠ [] ∧ cardClassWords.any (fun w => includesL (lowerL run) w) then
          some (6 + 1 + run.length + 1)
        else none
      else none
    | [] => none
  else none

/-- Global scan counting card-class regex matches.  Fuel bounds the scan; each
step consumes at least one character, so `s.length` fuel is enough. -/
def countCardMatchesGo : Nat → List Char → Nat
  | 0, _ => 0
  | fuel + 1, s =>
    match cardMatchAt s with
    | some n => 1 + countCardMatchesGo fuel (s.drop n)
    | none =>
      match s with
      | [] => 0
      | _ :: t => countCardMatchesGo fuel t

/-- Number of matches of the card-class regex in `html` (`html.match(...)`,
counting `matches.length`, with `null` counted as `0`). -/
def countCardMatches (s : List Char) : Nat := countCardMatchesGo s.length s

/-- scrape.js `needBrowserFallback(html)`: decides whether the statically
fetched page needs script execution. -/
def needBrowserFallback (html : List Char) : Bool :=
  let doc := lowerL html
  if includesL doc "via.placeholder.com".toList || includesL doc "placeholder.com".toList then
    true
  else if includesL doc "skeleton".toList || includesL doc "placeholder".toList then
    true
  else if countCardMatches html < 2 then
    true
  else
    false

/-- The spec's reading of the selector (§4.2): a disjunction of the three
heuristic signals — placeholder-image domains, marker substrings, or fewer
than two card-class matches. -/
def specNeedsRendering (html : List Char) : Bool :=
  includesL (lowerL html) "via.placeholder.com".toList ||
  includesL (lowerL html) "placeholder.com".toList ||
  includesL (lowerL html) "skeleton".toList ||
  includesL (lowerL html) "placeholder".toList ||
  decide (countCardMatches html < 2)

/-! ### Pending-request counter — `applyJsdomPolyfills` (src/converters.js) -/

/-- One operation on the render session's pending-request counter. -/
inductive CounterOp where
  | inc
  | dec
deriving DecidableEq

/-- `window.__incPending`: `__pendingRequests = (__pendingRequests || 0) + 1`.
The counter is a JS number, modelled as `Int` so that non-negativity is a
real statement.  `n || 0` is `n` unless `n = 0`, where it is again `0`. -/
def incPending (n : Int) : Int := (if n = 0 then 0 else n) + 1

/-- `window.__decPending`: `__pendingRequests = Math.max(0, (__pendingRequests || 1) - 1)`. -/
def decPending (n : Int) : Int := max 0 ((if n = 0 then 1 else n) - 1)

/-- Apply one counter operation. -/
def applyCounterOp (n : Int) : CounterOp → Int
  | .inc => incPending n
  | .dec => decPending n

/-- Counter value after a sequence of operations, starting from the
initialization `window.__pendingRequests = 0`. -/
def pendingAfter (ops : List CounterOp) : Int := ops.foldl applyCounterOp 0

/-- Counter operations performed by the wrapped `window.fetch`: the increment
runs before the request and the decrement runs in the `finally` block, so the
pair is emitted whether the underlying request resolves or throws. -/
def wrappedFetchOps : Except (List Char) (List Char) → List CounterOp
  | .ok _ => [.inc, .dec]
  | .error _ => [.inc, .dec]

/-! ### Retrying fetcher — `retryFetch` (src/converters.js)

`retryFetch(url, opts, maxRetries)` runs a loop over attempt indices
`0 ≤ attempt < maxRetries`.  The environment (network plus upstream server)
is modelled as a function from the attempt index to that attempt's result:
either a response with a status code or a transport failure (a rejected
`fetch`).  The loop accepts any response with `200 ≤ status < 500`; any
other result is thrown and caught, and — unless the attempt was the last —
followed by a delay of `2^attempt * 1000` milliseconds before the next
attempt.  A trace records the number of attempts made, the inserted delays in
order and the final outcome (`none` models the `undefined` return when
`maxRetries = 0` and the loop body never runs). -/

/-- Result of a single `fetch` call. -/
inductive FetchResult where
  | resp (status : Nat)
  | netFail
deriving DecidableEq

/-- Error thrown by one failed attempt: the synthesized `HTTP status` error
for a non-accepted response, or the transport error itself. -/
inductive FetchError where
  | http (status : Nat)
  | transport
deriving DecidableEq

/-- Response acceptance test of the loop: `res.status >= 200 && res.status < 500`. -/
def accepts : FetchResult → Bool
  | .resp s => decide (200 ≤ s ∧ s < 500)
  | .netFail => false

/-- The error thrown by a non-accepted attempt. -/
def throwOf : FetchResult → FetchError
  | .resp s => .http s
  | .netFail => .transport

/-- Status carried by a response (unused for transport failures). -/
def statusOf : FetchResult → Nat
  | .resp s => s
  | .netFail => 0

/-- Final outcome of `retryFetch`: a returned (accepted) response status, or
the error thrown after the last attempt. -/
inductive RetryOutcome where
  | ok (status : Nat)
  | err (e : FetchError)
deriving DecidableEq

/-- Execution trace of `retryFetch`. -/
structure RetryTrace where
  attempts : Nat
  delays : List Nat
  outcome : Option RetryOutcome
deriving DecidableEq

/-- The retry loop from attempt index `attempt` with `remaining` iterations
left (`remaining = maxRetries - attempt`); `remaining = 0` means the loop
guard fails and the function returns `undefined`. -/
def retryFetchGo (env : Nat → FetchResult) : Nat → Nat → RetryTrace
  | _, 0 => ⟨0, [], none⟩
  | attempt, r + 1 =>
    if accepts (env attempt) then
      ⟨1, [], some (.ok (statusOf (env attempt)))⟩
    else if r = 0 then
      ⟨1, [], some (.err (throwOf (env attempt)))⟩
    else
      ⟨(retryFetchGo env (attempt + 1) r).attempts + 1,
       2 ^ attempt * 1000 :: (retryFetchGo env (attempt + 1) r).delays,
       (retryFetchGo env (attempt + 1) r).outcome⟩

/-- `retryFetch(url, opts, maxRetries)` under environment `env`. -/
def retryFetch (env : Nat → FetchResult) (maxRetries : Nat) : RetryTrace :=
  retryFetchGo env 0 maxRetries

/-! ### Duplicate remover — `DuplicateRemover.removeDuplicates` (duplicates.js)

The simplified duplicate remover wired into the pipeline
(`require('./duplicates')` in src/index.js and scrape.js): split on newlines,
keep each line whose trimmed form is nonempty and not seen before (recording
the trimmed form), keep a blank line only when the previously kept line is
nonblank, join with newlines and trim the result. -/

/-- The loop body of `removeDuplicates`: `lines` still to process, `seen`
trimmed forms already kept, `acc` kept lines in reverse order. -/
def dedupGo : List (List Char) → List (List Char) → List (List Char) → List (List Char)
  | [], _, acc => acc.reverse
  | l :: ls, seen, acc =>
    if jsTrim l ≠ [] ∧ jsTrim l ∉ seen then
      dedupGo ls (jsTrim l :: seen) (l :: acc)
    else if jsTrim l = [] then
      match acc with
      | [] => dedupGo ls seen acc
      | prev :: _ => if jsTrim prev = [] then dedupGo ls seen acc else dedupGo ls seen (l :: acc)
    else
      dedupGo ls seen acc

/-- `DuplicateRemover.removeDuplicates(content)` of the simplified remover. -/
def removeDuplicates (content : List Char) : List Char :=
  jsTrim (joinNL (dedupGo (splitNL content) [] []))

/-! ### Section splitter — `DuplicateRemover.splitIntoSections` (enhanced
remover in the legacy extractors file)

Splits content at every occurrence of the fragment-boundary marker
`<!-- FRAGMENTO \d+ |` (the regex `/<!-- FRAGMENTO \d+ \|/g`), keeping the
text before the first marker as its own section, then filters out sections
that are blank after trimming. -/

/-- Length of the fragment-boundary marker when it matches at the head of
`s`: the literal `<!-- FRAGMENTO `, one or more digits, then ` |`. -/
def fragMarkerLen : List Char → Option Nat := fun s =>
  let lit := "<!-- FRAGMENTO ".toList
  if lit.isPrefixOf s then
    let rest := s.drop lit.length
    let digits := rest.takeWhile Char.isDigit
    let rest2 := rest.drop digits.length
    if digits ≠ [] ∧ (" |".toList).isPrefixOf rest2 then
      some (lit.length + digits.length + 2)
    else none
  else none

/-- Scan for marker positions: emits the section accumulated since the last
boundary whenever a marker starts, then continues after the marker literal
(the regex scan resumes at `match.index + match.length`).  `cur` holds the
current section in reverse.  Fuel is the remaining string length. -/
def splitSectionsGo : Nat → List Char → List Char → List (List Char) → List (List Char)
  | 0, _, cur, acc => (cur.reverse :: acc).reverse
  | fuel + 1, s, cur, acc =>
    match s with
    | [] => (cur.reverse :: acc).reverse
    | c :: t =>
      match fragMarkerLen s with
      | some n =>
        if cur = [] then
          splitSectionsGo fuel (s.drop n) ((s.take n).reverse) acc
        else
          splitSectionsGo fuel (s.drop n) ((s.take n).reverse) (cur.reverse :: acc)
      | none => splitSectionsGo fuel t (c :: cur) acc

/-- `DuplicateRemover.splitIntoSections(content)` of the enhanced remover:
sections delimited by fragment markers, blank sections dropped. -/
def splitIntoSections (content : List Char) : List (List Char) :=
  (splitSectionsGo content.length content [] []).filter (fun sec => jsTrim sec ≠ [])

/-- Number of lines of `s` whose trimmed form equals `line`. -/
def countLineOccurs (s line : List Char) : Nat :=
  ((splitNL s).map jsTrim).count line

/-! ### DOM model

A document is the subtree rooted at `document.body` (the node on which
`performRadialSearch` starts its scan): elements carry the `tagName` the DOM
reports, an attribute list and children; text nodes carry their data.  Nodes
are addressed by child-index paths from the body root; `[]` is the body
itself, whose parent chain (`HTML`, the document) lies outside the tree. -/

/-- A DOM node. -/
inductive DomNode where
  | element (tag : List Char) (attrs : List (List Char × List Char)) (children : List DomNode)
  | text (s : List Char)

/-- Node addressed by a child-index path. -/
def nodeAt? : List Nat → DomNode → Option DomNode
  | [], n => some n
  | i :: p, .element _ _ cs => (cs.get? i).bind (nodeAt? p)
  | _ :: _, .text _ => none

/-- The `tagName` of a node (`none` for text nodes). -/
def tagNameOf : DomNode → Option (List Char)
  | .element t _ _ => some t
  | .text _ => none

/-- Replace the node at a path (identity when the path dangles). -/
def updateAt : List Nat → (DomNode → DomNode) → DomNode → DomNode
  | [], f, n => f n
  | i :: p, f, .element t a cs => .element t a (cs.modify (updateAt p f) i)
  | _ :: _, _, .text s => .text s

mutual

/-- The `findTextNodes` scan of `performRadialSearch`: depth-first, skipping
`SCRIPT`/`STYLE` subtrees (tag upper-cased first, as in the source), returning
the paths of text nodes whose lower-cased content includes the lower-cased
term. -/
def findTextNodes (lt : List Char) : DomNode → List (List Nat)
  | .text s => if includesL (lowerL s) lt then [[]] else []
  | .element tag _ cs =>
    if upperL tag = "SCRIPT".toList ∨ upperL tag = "STYLE".toList then []
    else findTextNodesList lt cs 0

/-- Child-by-child traversal for `findTextNodes`, prefixing child indices. -/
def findTextNodesList (lt : List Char) : List DomNode → Nat → List (List Nat)
  | [], _ => []
  | c :: cs, i => (findTextNodes lt c).map (i :: ·) ++ findTextNodesList lt cs (i + 1)

end

mutual

/-- The effect of `cleanSvgContent` on a whole subtree: every `svg` element
loses all attributes except `xmlns` and all of its children. -/
def cleanTree : DomNode → DomNode
  | .text s => .text s
  | .element tag attrs cs =>
    if lowerL tag = "svg".toList then
      .element tag (attrs.filter (fun a => a.1 = "xmlns".toList)) []
    else
      .element tag attrs (cleanTreeList cs)

/-- `cleanTree` over a child list. -/
def cleanTreeList : List DomNode → List DomNode
  | [] => []
  | c :: cs => cleanTree c :: cleanTreeList cs

end

/-- `cleanSvgContent(element)` (src/converters.js): `querySelectorAll('svg')`
matches descendants only, so the element's own tag and attributes are kept
and every `svg` descendant is emptied. -/
def cleanSvgContent : DomNode → DomNode
  | .text s => .text s
  | .element t a cs => .element t a (cleanTreeList cs)

mutual

/-- Does the subtree avoid `svg` elements entirely? -/
def noSvg : DomNode → Bool
  | .text _ => true
  | .element tag _ cs => decide (lowerL tag ≠ "svg".toList) && noSvgList cs

/-- `noSvg` over a child list. -/
def noSvgList : List DomNode → Bool
  | [] => true
  | c :: cs => noSvg c && noSvgList cs

end

/-- HTML text-node escaping used by `outerHTML` serialization. -/
def escTextChar (c : Char) : List Char :=
  if c = '&' then "&amp;".toList
  else if c = '<' then "&lt;".toList
  else if c = '>' then "&gt;".toList
  else if c = Char.ofNat 160 then "&nbsp;".toList
  else [c]

/-- Escape a text node's data. -/
def escText (s : List Char) : List Char := s.flatMap escTextChar

/-- HTML attribute-value escaping used by `outerHTML` serialization. -/
def escAttrChar (c : Char) : List Char :=
  if c = '&' then "&amp;".toList
  else if c = '"' then "&quot;".toList
  else if c = Char.ofNat 160 then "&nbsp;".toList
  else [c]

/-- Serialize an attribute list. -/
def serializeAttrs (attrs : List (List Char × List Char)) : List Char :=
  attrs.flatMap (fun a => ' ' :: (a.1 ++ '=' :: '"' :: (a.2.flatMap escAttrChar ++ ['"'])))

mutual

/-- `outerHTML`: tags are serialized in lower case (the serializer uses the
local name), text is escaped. -/
def serialize : DomNode → List Char
  | .text s => escText s
  | .element tag attrs cs =>
    '<' :: (lowerL tag ++ serializeAttrs attrs ++ ['>'] ++ serializeList cs ++
      ('<' :: '/' :: (lowerL tag ++ ['>'])))

/-- Serialization of a child list (`innerHTML` of the parent). -/
def serializeList : List DomNode → List Char
  | [] => []
  | c :: cs => serialize c ++ serializeList cs

end

/-- The ancestor-ascension loop of `performRadialSearch`: starting from the
element at `q` (the match's immediate parent), ascend at most `fuel`
(`radiusLevels`) times, stopping early when the next parent is tagged `BODY`
or `HTML`; for the body root (`q = []`) the parent is the document's `HTML`
element, so the loop stops there too. -/
def ascend (root : DomNode) : List Nat → Nat → List Nat
  | q, 0 => q
  | q, fuel + 1 =>
    if q = [] then q
    else
      match nodeAt? q.dropLast root with
      | some (.element t _ _) =>
        if t = "BODY".toList ∨ t = "HTML".toList then q else ascend root q.dropLast fuel
      | _ => q

/-- `className` of an element: the `class` attribute's value, or `''`. -/
def classNameOf : DomNode → List Char
  | .element _ attrs _ =>
    match attrs.lookup "class".toList with
    | some v => v
    | none => []
  | .text _ => []

/-- The fragment's selector hint: `.`-joined class list when a class is
present (`'.' + className.split(' ').join('.')`), else the tag name. -/
def selectorOf : DomNode → List Char
  | .element tag attrs cs =>
    let cn := classNameOf (.element tag attrs cs)
    if cn ≠ [] then '.' :: List.intercalate ['.'] (cn.splitOn ' ') else tag
  | .text _ => []

/-- One extracted fragment. -/
structure Fragment where
  html : List Char
  selector : List Char
  repeatCount : Nat
  method : List Char
  term : List Char
deriving DecidableEq

/-- Options of `performRadialSearch`; the source applies `|| 2` and `|| 3`
defaults, so `0` selects the default. -/
structure RadialOpts where
  minRepeat : Nat := 2
  radiusLevels : Nat := 3
deriving DecidableEq

/-- The body of the `for (const textNode of textNodes)` loop: ascend from the
match's parent, mutate the document by cleaning `svg` descendants of the
boundary element, and emit the fragment serialized from the cleaned boundary.
The accumulated state is the (mutated) document plus the results list. -/
def radialStep (term : List Char) (rl : Nat) (st : DomNode × List Fragment) (p : List Nat) :
    DomNode × List Fragment :=
  let tree := st.1
  let bestPath := ascend tree p.dropLast rl
  match nodeAt? bestPath tree with
  | some (.element t a cs) =>
    let bestClean := cleanSvgContent (.element t a cs)
    let tree' := updateAt bestPath (fun _ => bestClean) tree
    (tree', st.2 ++ [{ html := serialize bestClean, selector := selectorOf bestClean,
                       repeatCount := 1, method := "fixed_radial".toList, term := term }])
  | _ => (tree, st.2)

/-- `performRadialSearch(document, term, opts)` (src/radialsearch.js), started
on `document.body`. -/
def performRadialSearch (body : DomNode) (term : List Char) (opts : RadialOpts) : List Fragment :=
  let lowerTerm := lowerL term
  let rl := if opts.radiusLevels = 0 then 3 else opts.radiusLevels
  let paths := findTextNodes lowerTerm body
  (paths.foldl (radialStep term rl) (body, [])).2

/-! ### Link expansion — `processLinksFromContent` (src/linkprocessors.js)

Collaborators are passed in as functions: `conv` is
`convertToLlmReadyMarkdown` (Turndown plus regex cleanup), `resolv` is
`resolveMarkdownLinks`, `ext` is `extractFilteredLinks` (which can throw — the
call sits in a `try` whose `catch` leaves `linkContent` empty), and `rend` is
`renderLinkAndExtractMarkdown` (whose failure is caught per link). -/

/-- Options relevant to `processLinksFromContent`.  `maxLinks = 0` models a
falsy `opts.maxLinks` (absent or zero), which the source replaces by `10`
via `opts.maxLinks || 10`. -/
structure LinkOpts where
  renderLinks : Bool
  baseUrl : Option (List Char)
  maxLinks : Nat
deriving DecidableEq

/-- The loop building `linkContent`: one delimited section per processed
link, numbered from `i + 1`; a failed link contributes the failure
placeholder instead of rendered markdown. -/
def linkSections (rend : List Char → Except (List Char) (List Char)) :
    Nat → List (List Char) → List Char
  | _, [] => []
  | i, url :: rest =>
    ("\n\n---\n\n### Linked Content ".toList ++ (Nat.repr (i + 1)).toList ++
        ": ".toList ++ url ++ "\n\n".toList ++
      (match rend url with
       | .ok md => md
       | .error msg => "[Failed to load: ".toList ++ (msg ++ "]".toList))) ++
    linkSections rend (i + 1) rest

/-- The base markdown computed by `processLinksFromContent`: the converted
input, with markdown links resolved when a base URL is given. -/
def baseMarkdownOf (conv : List Char → List Char)
    (resolv : List Char → List Char → List Char)
    (html : List Char) (baseUrl : Option (List Char)) : List Char :=
  match baseUrl with
  | some b => resolv (conv html) b
  | none => conv html

/-- `processLinksFromContent(html, opts)`. -/
def processLinksFromContent (conv : List Char → List Char)
    (resolv : List Char → List Char → List Char)
    (ext : List Char → Option (List Char) → Except (List Char) (List (List Char)))
    (rend : List Char → Except (List Char) (List Char))
    (html : List Char) (opts : LinkOpts) : List Char :=
  if opts.renderLinks = false then
    baseMarkdownOf conv resolv html opts.baseUrl
  else
    let baseMarkdown := baseMarkdownOf conv resolv html opts.baseUrl
    match ext html opts.baseUrl with
    | .error _ => baseMarkdown
    | .ok links =>
      if links = [] then baseMarkdown
      else
        let maxLinks := if opts.maxLinks = 0 then 10 else opts.maxLinks
        let processedLinks := links.take maxLinks
        baseMarkdown ++ linkSections rend 0 processedLinks

/-! ### Concrete test documents and environments -/

/-- HTML with three `product-card` elements and no placeholder markers
(spec scenario 1). -/
def cardsHtml3 : List Char :=
  ("<div class=\"product-card\">a</div><div class=\"product-card\">b</div>" ++
   "<div class=\"product-card\">c</div>").toList

/-- The same page shape with a single `product-card` element
(spec scenario 2). -/
def cardsHtml1 : List Char := "<div class=\"product-card\">a</div>".toList

/-- Environment for the retry witnesses: a transport failure, then a `200`. -/
def envFailThenOk : Nat → FetchResult := fun i => if i = 0 then .netFail else .resp 200

/-- Environment of spec scenario 4: `503` twice, then `200`. -/
def env503 : Nat → FetchResult := fun i => if i < 2 then .resp 503 else .resp 200

/-- A body whose term match sits inside an `svg` subtree: the match's
fragment is serialized only after `cleanSvgContent` empties the `svg`. -/
def svgBody : DomNode :=
  .element "BODY".toList []
    [.element "DIV".toList []
      [.element "svg".toList [("xmlns".toList, "http://www.w3.org/2000/svg".toList)]
        [.element "text".toList [] [.text "Toyota".toList]]]]

/-- A body whose matching text node is a direct child of `body`. -/
def directTextBody : DomNode :=
  .element "BODY".toList [] [.text "Toyota stuff".toList]

/-- A body with a match nested five levels deep (spec scenario 3 shape). -/
def deepBody : DomNode :=
  .element "BODY".toList []
    [.element "E1".toList []
      [.element "E2".toList []
        [.element "E3".toList []
          [.element "E4".toList []
            [.element "P".toList [] [.text "a Toyota b".toList]]]]]]

/-- Input with the same line once in each of two fragment sections. -/
def twoSectionInput : List Char :=
  "<!-- FRAGMENTO 1 | SELETOR: .a -->\nfoo\n<!-- FRAGMENTO 2 | SELETOR: .b -->\nfoo".toList

/-- Constant markdown converter for the link-expansion scenarios. -/
def convConst : List Char → List Char := fun _ => "BASE".toList

/-- Identity markdown-link resolver for the link-expansion scenarios. -/
def resolvId : List Char → List Char → List Char := fun md _ => md

/-- Fifteen candidate links in discovery order. -/
def urls15 : List (List Char) := (List.range 15).map (fun j => "http://e/".toList ++ (Nat.repr j).toList)

/-- Link extractor returning the fifteen candidates. -/
def extFifteen : List Char → Option (List Char) → Except (List Char) (List (List Char)) :=
  fun _ _ => .ok urls15

/-- Link extractor returning one candidate. -/
def extOne : List Char → Option (List Char) → Except (List Char) (List (List Char)) :=
  fun _ _ => .ok ["http://e/0".toList]

/-- Renderer that fails on the fourth link and succeeds elsewhere. -/
def rendScen : List Char → Except (List Char) (List Char) :=
  fun url => if url = "http://e/3".toList then .error "boom".toList else .ok ("MD ".toList ++ url)

/-- Options of spec scenario 6: render links, `maxLinks = 10`. -/
def optsTen : LinkOpts := { renderLinks := true, baseUrl := some "http://e/".toList, maxLinks := 10 }

/-- Options with a falsy `maxLinks`. -/
def optsZero : LinkOpts := { renderLinks := true, baseUrl := none, maxLinks := 0 }

/-- The full expected output of scenario 6: the base markdown followed by ten
numbered sections in discovery order, the fourth being a failure placeholder. -/
def expectedTenSections : List Char :=
  ("BASE\n\n---\n\n### Linked Content 1: http://e/0\n\nMD http://e/0" ++
   "\n\n---\n\n### Linked Content 2: http://e/1\n\nMD http://e/1" ++
   "\n\n---\n\n### Linked Content 3: http://e/2\n\nMD http://e/2" ++
   "\n\n---\n\n### Linked Content 4: http://e/3\n\n[Failed to load: boom]" ++
   "\n\n---\n\n### Linked Content 5: http://e/4\n\nMD http://e/4" ++
   "\n\n---\n\n### Linked Content 6: http://e/5\n\nMD http://e/5" ++
   "\n\n---\n\n### Linked Content 7: http://e/6\n\nMD http://e/6" ++
   "\n\n---\n\n### Linked Content 8: http://e/7\n\nMD http://e/7" ++
   "\n\n---\n\n### Linked Content 9: http://e/8\n\nMD http://e/8" ++
   "\n\n---\n\n### Linked Content 10: http://e/9\n\nMD http://e/9").toList

/-- The trimmed forms of the nonblank lines of `s`, in order. -/
def nonblankTrims (s : List Char) : List (List Char) :=
  ((splitNL s).map jsTrim).filter (fun l => l ≠ [])

/-- First-occurrence deduplication with an explicit seen accumulator. -/
def firstDedupGo (seen : List (List Char)) : List (List Char) → List (List Char)
  | [] => []
  | t :: r => if t ∈ seen then firstDedupGo seen r else t :: firstDedupGo (t :: seen) r

/-- Keep the first occurrence of each list element, dropping later repeats. -/
def firstDedup (ls : List (List Char)) : List (List Char) := firstDedupGo [] ls

/-! ## Theorems -/

/-! ### C10 — the pending-request counter never goes negative -/

/-- A single counter operation preserves non-negativity. -/
theorem applyCounterOp_nonneg (n : Int) (op : CounterOp) (h : 0 ≤ n) :
    0 ≤ applyCounterOp n op := by
  cases op with
  | inc =>
    simp only [applyCounterOp, incPending]
    split <;> omega
  | dec =>
    simp only [applyCounterOp, decPending]
    exact le_max_left _ _

/-- Folding counter operations from a non-negative start stays non-negative. -/
theorem foldl_applyCounterOp_nonneg (ops : List CounterOp) :
    ∀ n : Int, 0 ≤ n → 0 ≤ ops.foldl applyCounterOp n := by
  induction ops with
  | nil => intro n h; simpa using h
  | cons op ops ih =>
    intro n h
    simpa using ih (applyCounterOp n op) (applyCounterOp_nonneg n op h)

/-- C10: the render session's pending-request counter starts at `0`, each
completion decrements with a floor at zero, so every interleaving of tracked
starts and completions keeps it non-negative; and the wrapped `fetch` pairs
exactly one increment with exactly one decrement whether the underlying
request resolves or throws. -/
theorem pendingCounter_nonneg :
    (∀ ops : List CounterOp, 0 ≤ pendingAfter ops) ∧
    (∀ r : Except (List Char) (List Char),
      (wrappedFetchOps r).count CounterOp.inc = 1 ∧
      (wrappedFetchOps r).count CounterOp.dec = 1) := by
  constructor
  · intro ops
    exact foldl_applyCounterOp_nonneg ops 0 le_rfl
  · intro r
    cases r <;> exact ⟨rfl, rfl⟩

/-! ### C5 — the acquisition strategy selector is the claimed disjunction -/

/-- Boolean shape of the selector's if-chain. -/
theorem ite_chain_or (a b : Bool) (p : Prop) [Decidable p] :
    (if a then true else if b then true else if p then true else false) =
      (a || b || decide p) := by
  cases a <;> cases b <;> by_cases h : p <;> simp [h]

/-- C5: `needBrowserFallback` returns `true` exactly when one of the
heuristic signals holds — a placeholder-image domain, the `skeleton` or
`placeholder` markers, or fewer than two card-class matches — and on the two
spec scenarios: three `product-card` elements give `false`, one gives `true`. -/
theorem needBrowserFallback_spec :
    (∀ html : List Char, needBrowserFallback html = specNeedsRendering html) ∧
    needBrowserFallback cardsHtml3 = false ∧
    needBrowserFallback cardsHtml1 = true := by
  refine ⟨?_, by decide, by decide⟩
  intro html
  simp only [needBrowserFallback, specNeedsRendering]
  rw [ite_chain_or]
  simp [Bool.or_assoc]

/-! ### C9 — link expansion only appends after the base markdown -/

/-- C9: the string returned by `processLinksFromContent` always has the base
markdown of the input (converted HTML, links resolved against `baseUrl` when
given) as an exact prefix — in the no-render path, when link extraction
throws, when no links are found, and when sections (successes or failure
placeholders) are appended. -/
theorem processLinks_preserves_base
    (conv : List Char → List Char) (resolv : List Char → List Char → List Char)
    (ext : List Char → Option (List Char) → Except (List Char) (List (List Char)))
    (rend : List Char → Except (List Char) (List Char))
    (html : List Char) (opts : LinkOpts) :
    baseMarkdownOf conv resolv html opts.baseUrl <+:
      processLinksFromContent conv resolv ext rend html opts := by
  unfold processLinksFromContent
  split
  · exact List.prefix_rfl
  · cases h : ext html opts.baseUrl with
    | error e => exact List.prefix_rfl
    | ok links =>
      by_cases hl : links = []
      · simp [hl]
      · simp only [hl, if_neg]
        simp

/-! ### C2 — ascension and the body/html boundary -/

/-- C2 (amended): ancestor ascension never moves the boundary up to the
top-level `BODY`/`HTML` container: whenever the starting element (the match's
immediate parent) is not the body root itself, the selected boundary is not
the body root.  (The boundary equals the body exactly when the matching text
node is a direct child of `body`, see the counterexample.)  The hypothesis
records that the scanned tree is rooted at `document.body`. -/
theorem ascend_ne_body_root (body : DomNode) (q : List Nat) (fuel : Nat)
    (hroot : tagNameOf body = some "BODY".toList ∨ tagNameOf body = some "HTML".toList)
    (hq : q ≠ []) : ascend body q fuel ≠ [] := by
  induction fuel generalizing q with
  | zero => simpa [ascend] using hq
  | succ fuel ih =>
    rw [ascend, if_neg hq]
    by_cases hd : q.dropLast = []
    · rw [hd]
      cases body with
      | text s => simp [tagNameOf] at hroot
      | element t a cs =>
        simp only [tagNameOf, Option.some.injEq] at hroot
        simp only [nodeAt?]
        rw [if_pos hroot]
        exact hq
    · cases hn : nodeAt? q.dropLast body with
      | none => simp only [hn]; exact hq
      | some n =>
        cases n with
        | text s => simp only [hn]; exact hq
        | element t' a' cs' =>
          simp only [hn]
          by_cases hb : t' = "BODY".toList ∨ t' = "HTML".toList
          · rw [if_pos hb]; exact hq
          · rw [if_neg hb]; exact ih q.dropLast hd

/-- C2 witness: a deep match's boundary is an inner element, not the body. -/
theorem ascend_ne_body_root_witness :
    (tagNameOf deepBody = some "BODY".toList ∨ tagNameOf deepBody = some "HTML".toList) ∧
    ([0, 0] : List Nat) ≠ [] ∧
    ascend deepBody [0, 0] 3 ≠ [] :=
  ⟨Or.inl rfl, by decide,
    ascend_ne_body_root deepBody [0, 0] 3 (Or.inl rfl) (by decide)⟩

/-- C2 counterexample: for a text node that is a direct child of `body`, the
emitted fragment is the body's own `outerHTML` with selector `BODY` — the
boundary element is the top-level body, contrary to the claim. -/
theorem performRadialSearch_body_counterexample :
    performRadialSearch directTextBody "toyota".toList {} =
      [{ html := "<body>Toyota stuff</body>".toList, selector := "BODY".toList,
         repeatCount := 1, method := "fixed_radial".toList, term := "toyota".toList }] := by
  decide

/-! ### C3 — attempt bound and exponential backoff of `retryFetch` -/

/-- Trace shape of the retry loop started at attempt `a` with `r` iterations
left: at most `r` attempts, delays exactly `2^(a+i) * 1000` for `i` below
`attempts - 1`, and at least one attempt when an iteration remains. -/
theorem retryFetchGo_trace (env : Nat → FetchResult) :
    ∀ (r a : Nat),
      (retryFetchGo env a r).attempts ≤ r ∧
      (retryFetchGo env a r).delays =
        (List.range ((retryFetchGo env a r).attempts - 1)).map (fun i => 2 ^ (a + i) * 1000) ∧
      (r ≠ 0 → 1 ≤ (retryFetchGo env a r).attempts) := by
  intro r
  induction r with
  | zero => intro a; exact ⟨Nat.le_refl 0, rfl, fun h => absurd rfl h⟩
  | succ r ih =>
    intro a
    rw [retryFetchGo]
    by_cases hacc : accepts (env a) = true
    · rw [if_pos hacc]
      exact ⟨Nat.succ_le_succ (Nat.zero_le r), rfl, fun _ => le_rfl⟩
    · rw [if_neg hacc]
      by_cases hr : r = 0
      · rw [if_pos hr]
        exact ⟨Nat.succ_le_succ (Nat.zero_le r), rfl, fun _ => le_rfl⟩
      · rw [if_neg hr]
        obtain ⟨h1, h2, h3⟩ := ih (a + 1)
        refine ⟨Nat.succ_le_succ h1, ?_, fun _ => Nat.le_add_left 1 _⟩
        obtain ⟨m, hm⟩ : ∃ m, (retryFetchGo env (a + 1) r).attempts = m + 1 :=
          ⟨(retryFetchGo env (a + 1) r).attempts - 1, (Nat.succ_pred_eq_of_pos (h3 hr)).symm⟩
        simp only [hm, Nat.add_sub_cancel] at h2 ⊢
        rw [h2, List.range_succ_eq_map, List.map_cons, List.map_map, Nat.add_zero]
        congr 1
        apply List.map_congr_left
        intro i _
        simp only [Function.comp_apply]
        congr 2
        omega

/-- Sum of the first `k` backoff delays. -/
theorem geomSum_delays (k : Nat) :
    ((List.range k).map (fun i => 2 ^ i * 1000)).sum = (2 ^ k - 1) * 1000 := by
  induction k with
  | zero => rfl
  | succ k ih =>
    rw [List.range_succ, List.map_append, List.sum_append, ih]
    have h : 1 ≤ 2 ^ k := Nat.one_le_two_pow
    simp only [List.map_cons, List.map_nil, List.sum_cons, List.sum_nil, Nat.add_zero]
    rw [Nat.pow_succ]
    omega

/-- C3: `retryFetch` makes at most `maxAttempts` fetch attempts; the delay
inserted after failed attempt `i` is `2^i` seconds (`2^i * 1000` ms), there
is no delay after the final attempt (one fewer delay than attempts), and the
cumulative backoff before attempt `k` is `2^0 + ... + 2^(k-1)` seconds, i.e.
`(2^k - 1) * 1000` ms. -/
theorem retryFetch_attempts_delays (env : Nat → FetchResult) (maxAttempts : Nat) :
    (retryFetch env maxAttempts).attempts ≤ maxAttempts ∧
    (retryFetch env maxAttempts).delays =
      (List.range ((retryFetch env maxAttempts).attempts - 1)).map (fun i => 2 ^ i * 1000) ∧
    (retryFetch env maxAttempts).delays.length = (retryFetch env maxAttempts).attempts - 1 ∧
    (∀ k, k < (retryFetch env maxAttempts).attempts →
      ((retryFetch env maxAttempts).delays.take k).sum = (2 ^ k - 1) * 1000) := by
  obtain ⟨h1, h2, _⟩ := retryFetchGo_trace env maxAttempts 0
  have h2' : (retryFetch env maxAttempts).delays =
      (List.range ((retryFetch env maxAttempts).attempts - 1)).map (fun i => 2 ^ i * 1000) := by
    simp only [retryFetch] at h2 ⊢
    rw [h2]
    apply List.map_congr_left
    intro i _
    rw [Nat.zero_add]
  refine ⟨h1, h2', ?_, ?_⟩
  · rw [h2', List.length_map, List.length_range]
  · intro k hk
    rw [h2', ← List.map_take, List.take_range]
    have hmin : min k ((retryFetch env maxAttempts).attempts - 1) = k := by omega
    rw [hmin, geomSum_delays]

/-- C3 witness: with a transport failure then a `200`, two attempts are made
and the cumulative backoff before the second attempt is one second. -/
theorem retryFetch_attempts_delays_witness :
    1 < (retryFetch envFailThenOk 3).attempts ∧
    ((retryFetch envFailThenOk 3).delays.take 1).sum = (2 ^ 1 - 1) * 1000 :=
  ⟨by decide, (retryFetch_attempts_delays envFailThenOk 3).2.2.2 1 (by decide)⟩

/-! ### C4 — acceptance window, retry triggers and error surfacing -/

/-- An accepted attempt ends the loop at once. -/
theorem retryFetchGo_accept (env : Nat → FetchResult) (a r : Nat)
    (hacc : accepts (env a) = true) (hr : 0 < r) :
    retryFetchGo env a r = ⟨1, [], some (.ok (statusOf (env a)))⟩ := by
  cases r with
  | zero => omega
  | succ r => rw [retryFetchGo, if_pos hacc]

/-- A rejected attempt with iterations remaining recurses after its delay. -/
theorem retryFetchGo_reject_step (env : Nat → FetchResult) (a r : Nat)
    (hacc : accepts (env a) = false) (hr : 0 < r) :
    retryFetchGo env a (r + 1) =
      ⟨(retryFetchGo env (a + 1) r).attempts + 1,
       2 ^ a * 1000 :: (retryFetchGo env (a + 1) r).delays,
       (retryFetchGo env (a + 1) r).outcome⟩ := by
  rw [retryFetchGo, if_neg (by simp [hacc]), if_neg (by omega)]

/-- A rejected final attempt surfaces its error. -/
theorem retryFetchGo_reject_last (env : Nat → FetchResult) (a : Nat)
    (hacc : accepts (env a) = false) :
    retryFetchGo env a 1 = ⟨1, [], some (.err (throwOf (env a)))⟩ := by
  rw [retryFetchGo, if_neg (by simp [hacc]), if_pos rfl]

/-- If attempt `a + j` is the first accepted one, the loop returns its status
after exactly `j + 1` attempts. -/
theorem retryFetchGo_first_accept (env : Nat → FetchResult) :
    ∀ (j a r : Nat), accepts (env (a + j)) = true →
      (∀ i, i < j → accepts (env (a + i)) = false) → j < r →
      (retryFetchGo env a r).outcome = some (.ok (statusOf (env (a + j)))) ∧
      (retryFetchGo env a r).attempts = j + 1 := by
  intro j
  induction j with
  | zero =>
    intro a r hacc _ hr
    rw [Nat.add_zero] at hacc
    rw [retryFetchGo_accept env a r hacc (by omega), Nat.add_zero]
    exact ⟨rfl, rfl⟩
  | succ j ihj =>
    intro a r hacc hfail hr
    have hfa : accepts (env a) = false := by
      have h := hfail 0 (Nat.succ_pos j)
      rwa [Nat.add_zero] at h
    obtain ⟨r', rfl⟩ : ∃ r', r = r' + 1 := ⟨r - 1, by omega⟩
    rw [retryFetchGo_reject_step env a r' hfa (by omega)]
    have hacc' : accepts (env (a + 1 + j)) = true := by
      rwa [show a + 1 + j = a + (j + 1) by omega]
    have hfail' : ∀ i, i < j → accepts (env (a + 1 + i)) = false := by
      intro i hi
      have h := hfail (i + 1) (by omega)
      rwa [show a + (i + 1) = a + 1 + i by omega] at h
    obtain ⟨ho, ha⟩ := ihj (a + 1) r' hacc' hfail' (by omega)
    constructor
    · rw [ho]
      rw [show a + 1 + j = a + (j + 1) by omega]
    · rw [ha]

/-- If every attempt is rejected, the last attempt's error is thrown after
exactly `r` attempts. -/
theorem retryFetchGo_all_reject (env : Nat → FetchResult) :
    ∀ (r a : Nat), 0 < r → (∀ i, i < r → accepts (env (a + i)) = false) →
      (retryFetchGo env a r).outcome = some (.err (throwOf (env (a + (r - 1))))) ∧
      (retryFetchGo env a r).attempts = r := by
  intro r
  induction r with
  | zero => intro a h; omega
  | succ r ihr =>
    intro a _ hfail
    have hfa : accepts (env a) = false := by
      have h := hfail 0 (by omega)
      rwa [Nat.add_zero] at h
    cases Nat.eq_zero_or_pos r with
    | inl h0 =>
      subst h0
      rw [retryFetchGo_reject_last env a hfa]
      exact ⟨by rw [Nat.add_zero], rfl⟩
    | inr hpos =>
      rw [retryFetchGo_reject_step env a r hfa hpos]
      have hfail' : ∀ i, i < r → accepts (env (a + 1 + i)) = false := by
        intro i hi
        have h := hfail (i + 1) (by omega)
        rwa [show a + (i + 1) = a + 1 + i by omega] at h
      obtain ⟨ho, ha⟩ := ihr (a + 1) hpos hfail'
      constructor
      · rw [ho]
        rw [show a + 1 + (r - 1) = a + (r + 1 - 1) by omega]
      · rw [ha]

/-- C4: `retryFetch` returns the first response with status in `[200, 500)`
immediately — after `j + 1` attempts when attempt `j` is the first accepted
one, so a 4xx response is a valid outcome passed to the caller — while every
response with status `≥ 500` or transport failure is retried; and when all
`n` attempts are rejected, the last attempt's error is thrown. -/
theorem retryFetch_accept_semantics (env : Nat → FetchResult) (n : Nat) :
    (∀ j, j < n → accepts (env j) = true → (∀ i, i < j → accepts (env i) = false) →
      (retryFetch env n).outcome = some (.ok (statusOf (env j))) ∧
      (retryFetch env n).attempts = j + 1) ∧
    ((∀ i, i < n → accepts (env i) = false) → 0 < n →
      (retryFetch env n).outcome = some (.err (throwOf (env (n - 1)))) ∧
      (retryFetch env n).attempts = n) := by
  constructor
  · intro j hj hacc hfail
    have h := retryFetchGo_first_accept env j 0 n (by rwa [Nat.zero_add])
      (fun i hi => by rw [Nat.zero_add]; exact hfail i hi) hj
    rwa [Nat.zero_add] at h
  · intro hfail hn
    have h := retryFetchGo_all_reject env n 0 hn
      (fun i hi => by rw [Nat.zero_add]; exact hfail i hi)
    rwa [Nat.zero_add] at h

/-- C4 witness (spec scenario 4): `503`, `503`, then `200` — the final
outcome is the accepted `200` and exactly three attempts are recorded. -/
theorem retryFetch_accept_semantics_witness :
    (retryFetch env503 3).outcome = some (.ok 200) ∧
    (retryFetch env503 3).attempts = 3 := by
  have h := (retryFetch_accept_semantics env503 3).1 2 (by decide) (by decide)
    (by decide)
  exact ⟨h.1, h.2⟩

/-! ### C1 — radial extraction yields a fragment containing the term

Character-level groundwork: ASCII lower-casing commutes with HTML text
escaping, so a term free of the escaped characters survives serialization. -/

/-- `Char.ofNat` on a scalar value below the surrogate range. -/
theorem toNat_ofNat_small (n : Nat) (h : n < 55296) : (Char.ofNat n).toNat = n := by
  unfold Char.ofNat
  rw [dif_pos (Or.inl h)]
  rfl

/-- `Char.toLower` either fixes its argument or lands in `a`–`z`. -/
theorem toLower_cases (c : Char) :
    Char.toLower c = c ∨ (97 ≤ (Char.toLower c).toNat ∧ (Char.toLower c).toNat ≤ 122) := by
  by_cases h : c.toNat ≥ 65 ∧ c.toNat ≤ 90
  · right
    have hl : Char.toLower c = Char.ofNat (c.toNat + 32) := by
      unfold Char.toLower
      rw [if_pos h]
    rw [hl, toNat_ofNat_small (c.toNat + 32) (by omega)]
    omega
  · left
    unfold Char.toLower
    rw [if_neg h]

/-- `Char.toLower` cannot produce a character outside `a`–`z` that its
argument was not already. -/
theorem toLower_fix_of_target (c d : Char) (hd : d.toNat < 97 ∨ 122 < d.toNat)
    (h : Char.toLower c = d) : c = d := by
  cases toLower_cases c with
  | inl hfix => rw [← hfix, h]
  | inr hrange => rw [h] at hrange; omega

/-- Lower-casing commutes with text-node escaping, character by character. -/
theorem lowerL_escTextChar (c : Char) :
    lowerL (escTextChar c) = escTextChar (Char.toLower c) := by
  by_cases h1 : c = '&'
  · subst h1; decide
  · by_cases h2 : c = '<'
    · subst h2; decide
    · by_cases h3 : c = '>'
      · subst h3; decide
      · by_cases h4 : c = Char.ofNat 160
        · subst h4; decide
        · have g1 : Char.toLower c ≠ '&' := fun h =>
            h1 (toLower_fix_of_target c '&' (by decide) h)
          have g2 : Char.toLower c ≠ '<' := fun h =>
            h2 (toLower_fix_of_target c '<' (by decide) h)
          have g3 : Char.toLower c ≠ '>' := fun h =>
            h3 (toLower_fix_of_target c '>' (by decide) h)
          have g4 : Char.toLower c ≠ Char.ofNat 160 := fun h =>
            h4 (toLower_fix_of_target c (Char.ofNat 160) (by decide) h)
          rw [escTextChar, if_neg h1, if_neg h2, if_neg h3, if_neg h4]
          rw [escTextChar, if_neg g1, if_neg g2, if_neg g3, if_neg g4]
          rfl

/-- Lower-casing commutes with text-node escaping. -/
theorem lowerL_escText (s : List Char) : lowerL (escText s) = escText (lowerL s) := by
  induction s with
  | nil => rfl
  | cons c s ih =>
    have hc := lowerL_escTextChar c
    simp only [lowerL] at hc
    simp only [escText, lowerL, List.map_cons, List.flatMap_cons, List.map_append] at ih ⊢
    rw [hc, ih]

/-- Escaping is the identity on strings free of the escaped characters. -/
theorem escText_eq_self (u : List Char)
    (h : ∀ c ∈ u, c ≠ '&' ∧ c ≠ '<' ∧ c ≠ '>' ∧ c ≠ Char.ofNat 160) :
    escText u = u := by
  induction u with
  | nil => rfl
  | cons c u ih =>
    obtain ⟨h1, h2, h3, h4⟩ := h c (List.mem_cons_self c u)
    have ihu : u.flatMap escTextChar = u := ih (fun d hd => h d (List.mem_cons_of_mem c hd))
    simp only [escText, List.flatMap_cons] at ihu ⊢
    rw [escTextChar, if_neg h1, if_neg h2, if_neg h3, if_neg h4, ihu]
    rfl

/-- The lower-cased term is still free of the escaped characters. -/
theorem lowerL_nospecial (term : List Char)
    (h : ∀ c ∈ term, c ≠ '&' ∧ c ≠ '<' ∧ c ≠ '>' ∧ c ≠ Char.ofNat 160) :
    ∀ c ∈ lowerL term, c ≠ '&' ∧ c ≠ '<' ∧ c ≠ '>' ∧ c ≠ Char.ofNat 160 := by
  intro c hc
  obtain ⟨d, hd, rfl⟩ := List.mem_map.mp hc
  obtain ⟨h1, h2, h3, h4⟩ := h d hd
  refine ⟨?_, ?_, ?_, ?_⟩
  · exact fun h => h1 (toLower_fix_of_target d '&' (by decide) h)
  · exact fun h => h2 (toLower_fix_of_target d '<' (by decide) h)
  · exact fun h => h3 (toLower_fix_of_target d '>' (by decide) h)
  · exact fun h => h4 (toLower_fix_of_target d (Char.ofNat 160) (by decide) h)

/-- A term that contains no escaped characters and occurs in `s` still occurs
in the escaped form of `s`. -/
theorem term_infix_escText (t s : List Char)
    (ht : ∀ c ∈ t, c ≠ '&' ∧ c ≠ '<' ∧ c ≠ '>' ∧ c ≠ Char.ofNat 160)
    (h : t <:+: s) : t <:+: escText s := by
  obtain ⟨u, v, rfl⟩ := h
  have hself : t.flatMap escTextChar = t := by
    have := escText_eq_self t ht
    simpa [escText] using this
  rw [escText, List.flatMap_append, List.flatMap_append, hself]
  exact ⟨u.flatMap escTextChar, v.flatMap escTextChar, rfl⟩

/-! Tree lemmas: on svg-free documents `cleanSvgContent` is the identity, so
the per-iteration document mutation of `performRadialSearch` vanishes. -/

mutual

/-- svg-free subtrees are fixed by the svg cleaner. -/
theorem cleanTree_eq_of_noSvg : ∀ n : DomNode, noSvg n = true → cleanTree n = n
  | .text _, _ => rfl
  | .element t a cs, h => by
    rw [noSvg, Bool.and_eq_true] at h
    obtain ⟨h1, h2⟩ := h
    rw [cleanTree, if_neg (of_decide_eq_true h1), cleanTreeList_eq_of_noSvg cs h2]

/-- svg-free child lists are fixed by the svg cleaner. -/
theorem cleanTreeList_eq_of_noSvg : ∀ cs : List DomNode, noSvgList cs = true → cleanTreeList cs = cs
  | [], _ => rfl
  | c :: cs, h => by
    rw [noSvgList, Bool.and_eq_true] at h
    obtain ⟨h1, h2⟩ := h
    rw [cleanTreeList, cleanTree_eq_of_noSvg c h1, cleanTreeList_eq_of_noSvg cs h2]

end

/-- `cleanSvgContent` is the identity on svg-free nodes. -/
theorem cleanSvgContent_eq_of_noSvg (n : DomNode) (h : noSvg n = true) :
    cleanSvgContent n = n := by
  cases n with
  | text s => rfl
  | element t a cs =>
    rw [noSvg, Bool.and_eq_true] at h
    obtain ⟨_, h2⟩ := h
    rw [cleanSvgContent, cleanTreeList_eq_of_noSvg cs h2]

/-- Children of an svg-free element list are svg-free. -/
theorem noSvgList_get : ∀ (cs : List DomNode) (i : Nat) (c : DomNode),
    noSvgList cs = true → cs.get? i = some c → noSvg c = true
  | [], i, c, _, hg => by simp at hg
  | d :: cs, 0, c, h, hg => by
    rw [noSvgList, Bool.and_eq_true] at h
    obtain ⟨h1, _⟩ := h
    simp only [List.get?] at hg
    cases hg
    exact h1
  | d :: cs, i + 1, c, h, hg => by
    rw [noSvgList, Bool.and_eq_true] at h
    obtain ⟨_, h2⟩ := h
    exact noSvgList_get cs i c h2 hg

/-- Subnodes of an svg-free tree are svg-free. -/
theorem noSvg_nodeAt : ∀ (p : List Nat) (root n : DomNode),
    noSvg root = true → nodeAt? p root = some n → noSvg n = true
  | [], root, n, h, hn => by
    rw [nodeAt?] at hn
    cases hn
    exact h
  | i :: p, .element t a cs, n, h, hn => by
    rw [nodeAt?] at hn
    cases hg : cs.get? i with
    | none => rw [hg] at hn; simp at hn
    | some c =>
      rw [hg] at hn
      rw [noSvg, Bool.and_eq_true] at h
      obtain ⟨_, h2⟩ := h
      exact noSvg_nodeAt p c n (noSvgList_get cs i c h2 hg) hn
  | i :: p, .text s, n, h, hn => by rw [nodeAt?] at hn; cases hn

/-- Replacing a node by itself changes nothing. -/
theorem updateAt_self : ∀ (p : List Nat) (t x : DomNode),
    nodeAt? p t = some x → updateAt p (fun _ => x) t = t
  | [], t, x, h => by
    rw [nodeAt?] at h
    cases h
    rfl
  | i :: p, .element tg a cs, x, h => by
    rw [nodeAt?] at h
    rw [updateAt]
    congr 1
    induction cs generalizing i with
    | nil => simp at h
    | cons c cs ih =>
      cases i with
      | zero =>
        simp only [List.get?, Option.bind_some] at h
        rw [List.modify_zero_cons, updateAt_self p c x h]
      | succ i =>
        simp only [List.get?] at h
        rw [List.modify_succ_cons, ih i h]
  | i :: p, .text s, x, h => by rw [nodeAt?] at h; cases h

/-- A list's `dropLast` is one of its prefixes. -/
theorem dropLast_pre {α : Type} (l : List α) : l.dropLast <+: l := by
  by_cases h : l = []
  · subst h; exact List.prefix_rfl
  · exact ⟨[l.getLast h], List.dropLast_append_getLast h⟩

/-- The ascension result is a prefix of its starting path. -/
theorem ascend_pre (root : DomNode) : ∀ (fuel : Nat) (q : List Nat),
    ascend root q fuel <+: q := by
  intro fuel
  induction fuel with
  | zero => intro q; rw [ascend]
  | succ fuel ih =>
    intro q
    rw [ascend]
    by_cases hq : q = []
    · rw [if_pos hq]
    · rw [if_neg hq]
      cases hn : nodeAt? q.dropLast root with
      | none => simp only [hn]; exact List.prefix_rfl
      | some n =>
        cases n with
        | text s => simp only [hn]; exact List.prefix_rfl
        | element t a cs =>
          simp only [hn]
          by_cases hb : t = "BODY".toList ∨ t = "HTML".toList
          · rw [if_pos hb]
          · rw [if_neg hb]
            exact (ih q.dropLast).trans (dropLast_pre q)

/-- Path composition for node lookup. -/
theorem nodeAt?_append : ∀ (q r : List Nat) (t : DomNode),
    nodeAt? (q ++ r) t = (nodeAt? q t).bind (nodeAt? r)
  | [], r, t => rfl
  | i :: q, r, .element tg a cs => by
    rw [List.cons_append, nodeAt?, nodeAt?, Option.bind_assoc]
    congr 1
    funext c
    exact nodeAt?_append q r c
  | i :: q, r, .text s => by rw [List.cons_append, nodeAt?, nodeAt?]; rfl

/-- Lower-casing preserves substring occurrences. -/
theorem lowerL_infixes {x y : List Char} (h : x <:+: y) : lowerL x <:+: lowerL y := by
  obtain ⟨u, v, rfl⟩ := h
  exact ⟨lowerL u, lowerL v, by simp [lowerL]⟩

/-- A child's serialization occurs inside the child list's serialization. -/
theorem serializeList_of_get : ∀ (cs : List DomNode) (i : Nat) (c : DomNode),
    cs.get? i = some c → serialize c <:+: serializeList cs
  | [], i, c, h => by simp at h
  | d :: cs, 0, c, h => by
    simp only [List.get?] at h
    cases h
    rw [serializeList]
    exact ⟨[], serializeList cs, by simp⟩
  | d :: cs, i + 1, c, h => by
    simp only [List.get?] at h
    rw [serializeList]
    obtain ⟨u, v, huv⟩ := serializeList_of_get cs i c h
    exact ⟨serialize d ++ u, v, by rw [← huv]; simp⟩

/-- The escaped content of a descendant text node occurs inside the
serialization of its ancestor. -/
theorem escText_infix_serialize : ∀ (p : List Nat) (n : DomNode) (s : List Char),
    nodeAt? p n = some (.text s) → escText s <:+: serialize n
  | [], n, s, h => by
    rw [nodeAt?] at h
    cases h
    rw [serialize]
  | i :: p, .element t a cs, s, h => by
    rw [nodeAt?] at h
    cases hg : cs.get? i with
    | none => rw [hg] at h; exact Option.noConfusion h
    | some c =>
      rw [hg] at h
      have h1 := escText_infix_serialize p c s h
      have h2 := serializeList_of_get cs i c hg
      have h3 : serializeList cs <:+: serialize (.element t a cs) := by
        rw [serialize]
        refine ⟨'<' :: (lowerL t ++ serializeAttrs a ++ ['>']),
          '<' :: '/' :: (lowerL t ++ ['>']), ?_⟩
        simp [List.append_assoc]
      exact h1.trans (h2.trans h3)
  | i :: p, .text s', s, h => by rw [nodeAt?] at h; exact Option.noConfusion h

mutual

/-- Every path produced by the text-node scan leads to a text node whose
lower-cased content includes the search term. -/
theorem findTextNodes_sound : ∀ (n : DomNode) (lt : List Char) (p : List Nat),
    p ∈ findTextNodes lt n →
    ∃ s, nodeAt? p n = some (.text s) ∧ includesL (lowerL s) lt = true
  | .text s, lt, p, h => by
    rw [findTextNodes] at h
    by_cases hc : includesL (lowerL s) lt = true
    · rw [if_pos hc] at h
      have hp : p = [] := by simpa using h
      subst hp
      exact ⟨s, rfl, hc⟩
    · rw [if_neg hc] at h
      simp at h
  | .element t a cs, lt, p, h => by
    rw [findTextNodes] at h
    by_cases hs : upperL t = "SCRIPT".toList ∨ upperL t = "STYLE".toList
    · rw [if_pos hs] at h; simp at h
    · rw [if_neg hs] at h
      obtain ⟨j, q, c, hp, hg, s, hq, hinc⟩ := findTextNodesList_sound cs lt 0 p h
      subst hp
      refine ⟨s, ?_, hinc⟩
      rw [Nat.zero_add, nodeAt?, hg]
      exact hq

/-- List version of `findTextNodes_sound`, tracking the index offset. -/
theorem findTextNodesList_sound : ∀ (cs : List DomNode) (lt : List Char) (i : Nat) (p : List Nat),
    p ∈ findTextNodesList lt cs i →
    ∃ j q c, p = (i + j) :: q ∧ cs.get? j = some c ∧
      ∃ s, nodeAt? q c = some (.text s) ∧ includesL (lowerL s) lt = true
  | [], lt, i, p, h => by rw [findTextNodesList] at h; simp at h
  | c :: cs, lt, i, p, h => by
    rw [findTextNodesList] at h
    rcases List.mem_append.mp h with h1 | h2
    · obtain ⟨q, hq, rfl⟩ := List.mem_map.mp h1
      obtain ⟨s, hn, hinc⟩ := findTextNodes_sound c lt q hq
      exact ⟨0, q, c, by rw [Nat.add_zero], rfl, s, hn, hinc⟩
    · obtain ⟨j, q, d, hp, hg, hrest⟩ := findTextNodesList_sound cs lt (i + 1) p h2
      refine ⟨j + 1, q, d, ?_, hg, hrest⟩
      rw [hp]
      congr 1
      omega

end

/-- The results accumulator only grows along one radial step. -/
theorem radialStep_acc_pre (term : List Char) (rl : Nat) (st : DomNode × List Fragment)
    (p : List Nat) : st.2 <+: (radialStep term rl st p).2 := by
  rw [radialStep]
  cases hn : nodeAt? (ascend st.1 p.dropLast rl) st.1 with
  | none => simp only [hn]; exact List.prefix_rfl
  | some n =>
    cases n with
    | text s => simp only [hn]; exact List.prefix_rfl
    | element t a cs =>
      simp only [hn]
      exact ⟨_, rfl⟩

/-- The results accumulator only grows along the whole fold. -/
theorem foldl_radialStep_acc_pre (term : List Char) (rl : Nat) :
    ∀ (ps : List (List Nat)) (st : DomNode × List Fragment),
      st.2 <+: (ps.foldl (radialStep term rl) st).2 := by
  intro ps
  induction ps with
  | nil => intro st; rw [List.foldl_nil]
  | cons p ps ih =>
    intro st
    rw [List.foldl_cons]
    exact (radialStep_acc_pre term rl st p).trans (ih (radialStep term rl st p))

/-- The step taken on a match whose boundary resolves to an element. -/
theorem radialStep_elem (term : List Char) (rl : Nat) (tree : DomNode)
    (acc : List Fragment) (p : List Nat) (t' : List Char)
    (a' : List (List Char × List Char)) (cs' : List DomNode)
    (hb : nodeAt? (ascend tree p.dropLast rl) tree = some (.element t' a' cs')) :
    radialStep term rl (tree, acc) p =
      (updateAt (ascend tree p.dropLast rl) (fun _ => cleanSvgContent (.element t' a' cs')) tree,
       acc ++ [{ html := serialize (cleanSvgContent (.element t' a' cs')),
                 selector := selectorOf (cleanSvgContent (.element t' a' cs')),
                 repeatCount := 1, method := "fixed_radial".toList, term := term }]) := by
  rw [radialStep]
  simp only [hb]

/-- C1 (amended): for a document whose body contains the term in readable
text, radial extraction returns a fragment whose html includes the term
case-insensitively — provided the document contains no `svg` elements (the
counterexample shows `cleanSvgContent` erases matches inside `svg` subtrees)
and the term avoids the serializer-escaped characters `&`, `<`, `>`, NBSP. -/
theorem performRadialSearch_finds_term (body : DomNode) (term : List Char) (opts : RadialOpts)
    (hbody : tagNameOf body ≠ none)
    (hsvg : noSvg body = true)
    (hterm : ∀ c ∈ term, c ≠ '&' ∧ c ≠ '<' ∧ c ≠ '>' ∧ c ≠ Char.ofNat 160)
    (hmatch : findTextNodes (lowerL term) body ≠ []) :
    ∃ f ∈ performRadialSearch body term opts,
      includesL (lowerL f.html) (lowerL term) = true := by
  obtain ⟨p₀, rest, hps⟩ : ∃ p₀ rest, findTextNodes (lowerL term) body = p₀ :: rest := by
    cases h : findTextNodes (lowerL term) body with
    | nil => exact absurd h hmatch
    | cons p₀ rest => exact ⟨p₀, rest, rfl⟩
  obtain ⟨s, hnode, hinc⟩ := findTextNodes_sound body (lowerL term) p₀
    (by rw [hps]; exact List.mem_cons_self _ _)
  have hp0 : p₀ ≠ [] := by
    intro hnil
    subst hnil
    rw [nodeAt?] at hnode
    cases hnode
    exact hbody rfl
  set rl := if opts.radiusLevels = 0 then 3 else opts.radiusLevels with hrl
  have hpre : ascend body p₀.dropLast rl <+: p₀ :=
    (ascend_pre body rl p₀.dropLast).trans (dropLast_pre p₀)
  have hlen : (ascend body p₀.dropLast rl).length < p₀.length := by
    have h1 : (ascend body p₀.dropLast rl).length ≤ p₀.dropLast.length :=
      (ascend_pre body rl p₀.dropLast).length_le
    have h2 : p₀.dropLast.length < p₀.length := by
      rw [List.length_dropLast]
      have : p₀.length ≠ 0 := fun h => hp0 (List.length_eq_zero.mp h)
      omega
    omega
  obtain ⟨r, hr⟩ := hpre
  have hrne : r ≠ [] := by
    intro hnil
    subst hnil
    rw [List.append_nil] at hr
    rw [hr] at hlen
    omega
  have hsplit : (nodeAt? (ascend body p₀.dropLast rl) body).bind (nodeAt? r) =
      some (.text s) := by
    rw [← nodeAt?_append, hr]
    exact hnode
  cases hb : nodeAt? (ascend body p₀.dropLast rl) body with
  | none => rw [hb] at hsplit; exact Option.noConfusion hsplit
  | some best =>
    rw [hb] at hsplit
    have hbest : nodeAt? r best = some (.text s) := hsplit
    cases best with
    | text s' =>
      obtain ⟨j, r', rfl⟩ := List.exists_cons_of_ne_nil hrne
      rw [nodeAt?] at hbest
      exact Option.noConfusion hbest
    | element t' a' cs' =>
      have hnos : noSvg (.element t' a' cs') = true :=
        noSvg_nodeAt (ascend body p₀.dropLast rl) body _ hsvg hb
      have hclean : cleanSvgContent (.element t' a' cs') = .element t' a' cs' :=
        cleanSvgContent_eq_of_noSvg _ hnos
      have hcontain : includesL
          (lowerL (serialize (cleanSvgContent (.element t' a' cs')))) (lowerL term) = true := by
        rw [hclean]
        apply decide_eq_true
        have c1 : lowerL term <:+: lowerL s := of_decide_eq_true hinc
        have c2 : lowerL term <:+: escText (lowerL s) :=
          term_infix_escText (lowerL term) (lowerL s) (lowerL_nospecial term hterm) c1
        rw [← lowerL_escText] at c2
        exact c2.trans (lowerL_infixes (escText_infix_serialize r _ s hbest))
      rw [performRadialSearch, hps, List.foldl_cons,
        radialStep_elem term rl body [] p₀ t' a' cs' hb, List.nil_append]
      obtain ⟨tl, htl⟩ := foldl_radialStep_acc_pre term rl rest
        (updateAt (ascend body p₀.dropLast rl)
          (fun _ => cleanSvgContent (.element t' a' cs')) body,
         [{ html := serialize (cleanSvgContent (.element t' a' cs')),
            selector := selectorOf (cleanSvgContent (.element t' a' cs')),
            repeatCount := 1, method := "fixed_radial".toList, term := term }])
      refine ⟨{ html := serialize (cleanSvgContent (.element t' a' cs')),
                selector := selectorOf (cleanSvgContent (.element t' a' cs')),
                repeatCount := 1, method := "fixed_radial".toList, term := term }, ?_, hcontain⟩
      rw [← htl]
      simp

/-- C1 witness: a plain nested document containing `Toyota` yields a
fragment whose html includes the term. -/
theorem performRadialSearch_finds_term_witness :
    tagNameOf deepBody ≠ none ∧ noSvg deepBody = true ∧
    findTextNodes (lowerL "Toyota".toList) deepBody ≠ [] ∧
    ∃ f ∈ performRadialSearch deepBody "Toyota".toList {},
      includesL (lowerL f.html) (lowerL "Toyota".toList) = true :=
  ⟨by decide, by decide, by decide,
    performRadialSearch_finds_term deepBody "Toyota".toList {} (by decide) (by decide)
      (by decide) (by decide)⟩

/-- C1 counterexample: the term sits in readable text (a text node outside
script/style), yet the single returned fragment's html does not contain it —
`cleanSvgContent` empties the `svg` subtree before serialization. -/
theorem performRadialSearch_svg_counterexample :
    findTextNodes (lowerL "Toyota".toList) svgBody ≠ [] ∧
    (performRadialSearch svgBody "Toyota".toList {}).length = 1 ∧
    ((performRadialSearch svgBody "Toyota".toList {}).all
      (fun f => !includesL (lowerL f.html) (lowerL "Toyota".toList))) = true := by
  refine ⟨by decide, by decide, by decide⟩

/-! ### C8 — bounded sequential link expansion -/

/-- C8 (amended): when `maxLinks ≥ 1`, `processLinksFromContent` processes at
most `maxLinks` candidate links — the output is the base markdown followed by
one numbered section per taken link, in discovery order, failures included as
placeholders (a falsy `maxLinks = 0` instead selects the default `10`, see
the counterexample); and in spec scenario 6 (15 candidate links,
`maxLinks = 10`) the output is exactly the base plus ten sections numbered
1–10 in discovery order, the failing link contributing its placeholder. -/
theorem processLinks_maxLinks_bound :
    (∀ (conv : List Char → List Char) (resolv : List Char → List Char → List Char)
        (ext : List Char → Option (List Char) → Except (List Char) (List (List Char)))
        (rend : List Char → Except (List Char) (List Char))
        (html : List Char) (opts : LinkOpts) (links : List (List Char)),
        opts.renderLinks = true →
        ext html opts.baseUrl = Except.ok links →
        links ≠ [] →
        1 ≤ opts.maxLinks →
        processLinksFromContent conv resolv ext rend html opts =
          baseMarkdownOf conv resolv html opts.baseUrl ++
            linkSections rend 0 (links.take opts.maxLinks) ∧
        (links.take opts.maxLinks).length ≤ opts.maxLinks) ∧
    processLinksFromContent convConst resolvId extFifteen rendScen "x".toList optsTen =
      expectedTenSections ∧
    countOccur "### Linked Content ".toList
      (processLinksFromContent convConst resolvId extFifteen rendScen "x".toList optsTen) = 10 := by
  refine ⟨?_, by decide, by decide⟩
  intro conv resolv ext rend html opts links hrl hext hne hmax
  have h0 : (if opts.maxLinks = 0 then 10 else opts.maxLinks) = opts.maxLinks :=
    if_neg (by omega)
  rw [processLinksFromContent, if_neg (by simp [hrl])]
  simp only [hext, if_neg hne, h0]
  exact ⟨trivial, List.length_take_le _ _⟩

/-- C8 witness: three allowed links and one candidate give the base plus one
section. -/
theorem processLinks_maxLinks_bound_witness :
    processLinksFromContent convConst resolvId extOne rendScen "y".toList
        { renderLinks := true, baseUrl := none, maxLinks := 3 } =
      baseMarkdownOf convConst resolvId "y".toList none ++
        linkSections rendScen 0 (["http://e/0".toList].take 3) ∧
    (["http://e/0".toList].take 3).length ≤ 3 :=
  processLinks_maxLinks_bound.1 convConst resolvId extOne rendScen "y".toList
    { renderLinks := true, baseUrl := none, maxLinks := 3 } ["http://e/0".toList]
    rfl rfl (by decide) (by decide)

/-- C8 counterexample: with `maxLinks = 0` the claim demands that no link be
processed, but the source's `opts.maxLinks || 10` falls back to `10`, so one
candidate link still produces a section. -/
theorem processLinks_maxLinksZero_counterexample :
    optsZero.maxLinks = 0 ∧
    countOccur "### Linked Content ".toList
      (processLinksFromContent convConst resolvId extOne rendScen "x".toList optsZero) = 1 :=
  ⟨rfl, by decide⟩

/-! ### C6/C7 — the duplicate remover

Groundwork on `jsTrim` and line splitting. -/

/-- A string trims to nothing iff it is all whitespace. -/
theorem jsTrim_eq_nil_iff (l : List Char) : jsTrim l = [] ↔ ∀ c ∈ l, isJsWS c = true := by
  rw [jsTrim, trimEndL, trimStartL]
  constructor
  · intro h c hc
    have h1 : (l.dropWhile isJsWS).reverse.dropWhile isJsWS = [] := by
      cases he : (l.dropWhile isJsWS).reverse.dropWhile isJsWS with
      | nil => rfl
      | cons a as => rw [he] at h; simp at h
    have h2 : ∀ c ∈ (l.dropWhile isJsWS).reverse, isJsWS c = true :=
      List.dropWhile_eq_nil_iff.mp h1
    by_cases hd : c ∈ l.dropWhile isJsWS
    · exact h2 c (List.mem_reverse.mpr hd)
    · have := List.takeWhile_append_dropWhile (p := isJsWS) (l := l)
      have hc' : c ∈ l.takeWhile isJsWS ++ l.dropWhile isJsWS := by rw [this]; exact hc
      rcases List.mem_append.mp hc' with h3 | h3
      · exact List.mem_takeWhile_imp h3
      · exact absurd h3 hd
  · intro h
    have h1 : l.dropWhile isJsWS = [] := List.dropWhile_eq_nil_iff.mpr h
    rw [h1]
    rfl

/-- `trimEndL` distributes over an append whose right part survives. -/
theorem trimEndL_append_keep (a b : List Char) (hb : ¬ ∀ c ∈ b, isJsWS c = true) :
    trimEndL (a ++ b) = a ++ trimEndL b := by
  rw [trimEndL, trimEndL, List.reverse_append, List.dropWhile_append]
  have hne : b.reverse.dropWhile isJsWS ≠ [] := by
    intro h
    exact hb (fun c hc => List.dropWhile_eq_nil_iff.mp h c (List.mem_reverse.mpr hc))
  rw [if_neg (by simpa using hne), List.reverse_append, List.reverse_reverse]

/-- `trimEndL` erases an all-whitespace right part. -/
theorem trimEndL_append_drop (a b : List Char) (hb : ∀ c ∈ b, isJsWS c = true) :
    trimEndL (a ++ b) = trimEndL a := by
  rw [trimEndL, trimEndL, List.reverse_append, List.dropWhile_append]
  have hnil : b.reverse.dropWhile isJsWS = [] :=
    List.dropWhile_eq_nil_iff.mpr (fun c hc => hb c (List.mem_reverse.mp hc))
  rw [if_pos (by simp [hnil])]

/-- `trimStartL` distributes over an append whose left part survives. -/
theorem trimStartL_append_keep (a b : List Char) (ha : ¬ ∀ c ∈ a, isJsWS c = true) :
    trimStartL (a ++ b) = trimStartL a ++ b := by
  rw [trimStartL, trimStartL, List.dropWhile_append]
  have hne : a.dropWhile isJsWS ≠ [] := fun h => ha (List.dropWhile_eq_nil_iff.mp h)
  rw [if_neg (by simpa using hne)]

/-- `dropWhile` is idempotent. -/
theorem dropWhile_idem {α : Type} (p : α → Bool) (l : List α) :
    (l.dropWhile p).dropWhile p = l.dropWhile p := by
  cases h : l.dropWhile p with
  | nil => rfl
  | cons a as =>
    have hq : (l.dropWhile p).head? = some a := by rw [h]; rfl
    have hpa : p a = false := by
      have hm := List.head?_dropWhile_not p l
      simpa only [hq] using hm
    rw [List.dropWhile_cons, if_neg (by simp [hpa])]

/-- `trimStartL` is idempotent. -/
theorem trimStartL_idem (l : List Char) : trimStartL (trimStartL l) = trimStartL l :=
  dropWhile_idem isJsWS l

/-- `trimEndL` is idempotent. -/
theorem trimEndL_idem (l : List Char) : trimEndL (trimEndL l) = trimEndL l := by
  rw [trimEndL, trimEndL, List.reverse_reverse, dropWhile_idem]

/-- `trimEndL` keeps a prefix of its input. -/
theorem trimEndL_pre (l : List Char) : trimEndL l <+: l := by
  refine ⟨(l.reverse.takeWhile isJsWS).reverse, ?_⟩
  rw [trimEndL, ← List.reverse_append, List.takeWhile_append_dropWhile, List.reverse_reverse]

/-- Trimming the start first or not does not change the trimmed result. -/
theorem jsTrim_trimStartL (l : List Char) : jsTrim (trimStartL l) = jsTrim l := by
  rw [jsTrim, jsTrim, trimStartL_idem]

/-- `trimEndL` of an all-whitespace string is empty. -/
theorem trimEndL_of_allWS (b : List Char) (hb : ∀ c ∈ b, isJsWS c = true) :
    trimEndL b = [] := by
  rw [trimEndL,
    List.dropWhile_eq_nil_iff.mpr (fun c hc => hb c (List.mem_reverse.mp hc))]
  rfl

/-- `trimStartL` erases an all-whitespace left part. -/
theorem trimStartL_append_drop (a b : List Char) (ha : ∀ c ∈ a, isJsWS c = true) :
    trimStartL (a ++ b) = trimStartL b := by
  rw [trimStartL, trimStartL, List.dropWhile_append,
    if_pos (by simp [List.dropWhile_eq_nil_iff.mpr ha])]

/-- Members of a `trimEndL` result are members of the input. -/
theorem mem_of_mem_trimEndL {c : Char} {l : List Char} (h : c ∈ trimEndL l) : c ∈ l := by
  obtain ⟨u, hu⟩ := trimEndL_pre l
  rw [← hu]
  exact List.mem_append_left u h

/-- End-trimming the output of `trimStartL` leaves nothing to start-trim. -/
theorem trimStartL_trimEndL_trimStartL (l : List Char) :
    trimStartL (trimEndL (trimStartL l)) = trimEndL (trimStartL l) := by
  cases h : trimEndL (trimStartL l) with
  | nil => rfl
  | cons a as =>
    have hhead : ∃ u, trimStartL l = a :: (as ++ u) := by
      obtain ⟨u, hu⟩ := trimEndL_pre (trimStartL l)
      rw [h] at hu
      exact ⟨u, by rw [← hu]; rfl⟩
    obtain ⟨u, hu⟩ := hhead
    have hq : (l.dropWhile isJsWS).head? = some a := by
      rw [show l.dropWhile isJsWS = trimStartL l from rfl, hu]
      rfl
    have hpa : isJsWS a = false := by
      have hm := List.head?_dropWhile_not isJsWS l
      simpa only [hq] using hm
    rw [trimStartL, List.dropWhile_cons, if_neg (by simp [hpa])]

/-- `jsTrim` is idempotent. -/
theorem jsTrim_idem (w : List Char) : jsTrim (jsTrim w) = jsTrim w := by
  rw [jsTrim, jsTrim, trimStartL_trimEndL_trimStartL, trimEndL_idem]

/-- Trimming the end first or not does not change the trimmed result. -/
theorem jsTrim_trimEndL (l : List Char) : jsTrim (trimEndL l) = jsTrim l := by
  by_cases h : ∀ c ∈ l, isJsWS c = true
  · rw [trimEndL_of_allWS l h]
    rw [(jsTrim_eq_nil_iff l).mpr h]
    rfl
  · have hsplit := List.takeWhile_append_dropWhile (p := isJsWS) (l := l)
    have hm : ¬ ∀ c ∈ trimStartL l, isJsWS c = true := by
      intro hall
      apply h
      intro c hc
      rw [← hsplit] at hc
      rcases List.mem_append.mp hc with h1 | h1
      · exact List.mem_takeWhile_imp h1
      · exact hall c h1
    have e1 : trimEndL l = l.takeWhile isJsWS ++ trimEndL (trimStartL l) := by
      conv =>
        lhs
        rw [← hsplit]
      exact trimEndL_append_keep _ _ hm
    rw [e1, jsTrim, trimStartL_append_drop _ _ (fun c hc => List.mem_takeWhile_imp hc)]
    rw [trimStartL_trimEndL_trimStartL, trimEndL_idem]
    rfl

/-- `joinNL` is `intercalate` with a newline. -/
theorem joinNL_eq_intercalate : ∀ ls : List (List Char), joinNL ls = List.intercalate ['\n'] ls
  | [] => by rw [joinNL]; simp [List.intercalate]
  | [l] => by rw [joinNL]; simp [List.intercalate]
  | l :: l' :: ls => by
    rw [show joinNL (l :: l' :: ls) = l ++ '\n' :: joinNL (l' :: ls) from rfl,
      joinNL_eq_intercalate (l' :: ls)]
    simp only [List.intercalate, List.intersperse]
    rw [List.flatten_cons, List.flatten_cons]
    rfl

/-- Joining the split lines restores the string (`split`/`join` inverse). -/
theorem joinNL_splitNL (s : List Char) : joinNL (splitNL s) = s := by
  rw [joinNL_eq_intercalate, splitNL, List.intercalate_splitOn]

/-- Splitting a join of newline-free lines restores the lines. -/
theorem splitNL_joinNL (ls : List (List Char)) (hnl : ∀ l ∈ ls, '\n' ∉ l)
    (hne : ls ≠ []) : splitNL (joinNL ls) = ls := by
  rw [joinNL_eq_intercalate, splitNL]
  exact List.splitOn_intercalate ls '\n' hnl hne

/-- Segments produced by `splitOnP` contain no separator element. -/
theorem not_mem_splitOnP {α : Type} [DecidableEq α] (p : α → Bool) :
    ∀ (s : List α) (l : List α), l ∈ s.splitOnP p → ∀ x ∈ l, ¬ p x = true
  | [], l, hl, x, hx => by
    rw [List.splitOnP_nil] at hl
    simp at hl
    subst hl
    simp at hx
  | c :: t, l, hl, x, hx => by
    rw [List.splitOnP_cons] at hl
    by_cases hc : p c = true
    · rw [if_pos hc] at hl
      rcases List.mem_cons.mp hl with h1 | h1
      · subst h1; simp at hx
      · exact not_mem_splitOnP p t l h1 x hx
    · rw [if_neg hc] at hl
      cases hL : t.splitOnP p with
      | nil => exact absurd hL (List.splitOnP_ne_nil p t)
      | cons h0 tl =>
        rw [hL, List.modifyHead_cons] at hl
        rcases List.mem_cons.mp hl with h1 | h1
        · subst h1
          rcases List.mem_cons.mp hx with h2 | h2
          · subst h2; exact hc
          · exact not_mem_splitOnP p t h0 (by rw [hL]; exact List.mem_cons_self _ _) x h2
        · exact not_mem_splitOnP p t l (by rw [hL]; exact List.mem_cons_of_mem h0 h1) x hx

/-- Lines produced by `splitNL` contain no newline. -/
theorem nl_not_mem_splitNL (s : List Char) (l : List Char) (hl : l ∈ splitNL s) :
    '\n' ∉ l := by
  intro hx
  have := not_mem_splitOnP (fun c => c == '\n') s l (by rwa [splitNL, List.splitOn] at hl)
    '\n' hx
  simp at this

/-- `joinNL` over a nonempty tail. -/
theorem joinNL_cons_of_ne (l : List Char) (ls : List (List Char)) (h : ls ≠ []) :
    joinNL (l :: ls) = l ++ '\n' :: joinNL ls := by
  cases ls with
  | nil => exact absurd rfl h
  | cons l' ls' => rfl

/-- `joinNL` over a snoc. -/
theorem joinNL_concat (M : List (List Char)) (q : List Char) (h : M ≠ []) :
    joinNL (M ++ [q]) = joinNL M ++ '\n' :: q := by
  induction M with
  | nil => exact absurd rfl h
  | cons m M ih =>
    cases M with
    | nil => rfl
    | cons m' M' =>
      rw [List.cons_append,
        joinNL_cons_of_ne m ((m' :: M') ++ [q]) (by simp),
        joinNL_cons_of_ne m (m' :: M') (by simp),
        ih (by simp)]
      simp

/-! The `removeDuplicates` loop: kept lines, invariants of the output, and
the trimmed content it retains. -/

/-- Unfolding of the loop body on a cons cell. -/
theorem dedupGo_cons (l : List Char) (ls seen acc : List (List Char)) :
    dedupGo (l :: ls) seen acc =
      if jsTrim l ≠ [] ∧ jsTrim l ∉ seen then dedupGo ls (jsTrim l :: seen) (l :: acc)
      else if jsTrim l = [] then
        match acc with
        | [] => dedupGo ls seen acc
        | prev :: _ =>
          if jsTrim prev = [] then dedupGo ls seen acc else dedupGo ls seen (l :: acc)
      else dedupGo ls seen acc := by
  rw [dedupGo.eq_def]

/-- Unfolding on a blank line with an empty accumulator: the line is skipped. -/
theorem dedupGo_cons_blank_nil (l : List Char) (ls seen : List (List Char))
    (ht : jsTrim l = []) : dedupGo (l :: ls) seen [] = dedupGo ls seen [] := by
  rw [dedupGo_cons, if_neg (by simp [ht]), if_pos ht]

/-- Unfolding on a blank line with a nonempty accumulator. -/
theorem dedupGo_cons_blank (l : List Char) (ls seen : List (List Char))
    (prev : List Char) (tl : List (List Char)) (ht : jsTrim l = []) :
    dedupGo (l :: ls) seen (prev :: tl) =
      if jsTrim prev = [] then dedupGo ls seen (prev :: tl)
      else dedupGo ls seen (l :: prev :: tl) := by
  rw [dedupGo_cons, if_neg (by simp [ht]), if_pos ht]

/-- Unfolding on a nonblank line whose trim was already seen: skipped. -/
theorem dedupGo_cons_dup (l : List Char) (ls seen acc : List (List Char))
    (ht : jsTrim l ≠ []) (hs : jsTrim l ∈ seen) :
    dedupGo (l :: ls) seen acc = dedupGo ls seen acc := by
  rw [dedupGo_cons, if_neg (by simp [hs]), if_neg (by simp [ht])]

/-- Unfolding on a fresh nonblank line: kept. -/
theorem dedupGo_cons_keep (l : List Char) (ls seen acc : List (List Char))
    (ht : jsTrim l ≠ []) (hs : jsTrim l ∉ seen) :
    dedupGo (l :: ls) seen acc = dedupGo ls (jsTrim l :: seen) (l :: acc) := by
  rw [dedupGo_cons, if_pos ⟨ht, hs⟩]

/-- Kept lines come from the input or the accumulator. -/
theorem dedupGo_sub : ∀ (ls seen acc : List (List Char)) (l : List Char),
    l ∈ dedupGo ls seen acc → l ∈ ls ∨ l ∈ acc
  | [], _, acc, l, h => by
    rw [dedupGo] at h
    exact Or.inr (List.mem_reverse.mp h)
  | m :: ls, seen, acc, l, h => by
    by_cases h1 : jsTrim m = []
    · cases acc with
      | nil =>
        rw [dedupGo_cons_blank_nil m ls seen h1] at h
        rcases dedupGo_sub ls seen [] l h with h3 | h3
        · exact Or.inl (List.mem_cons_of_mem m h3)
        · simp at h3
      | cons prev tl =>
        rw [dedupGo_cons_blank m ls seen prev tl h1] at h
        by_cases h4 : jsTrim prev = []
        · rw [if_pos h4] at h
          rcases dedupGo_sub ls seen (prev :: tl) l h with h3 | h3
          · exact Or.inl (List.mem_cons_of_mem m h3)
          · exact Or.inr h3
        · rw [if_neg h4] at h
          rcases dedupGo_sub ls seen (m :: prev :: tl) l h with h3 | h3
          · exact Or.inl (List.mem_cons_of_mem m h3)
          · rcases List.mem_cons.mp h3 with h5 | h5
            · exact Or.inl (by rw [h5]; exact List.mem_cons_self m ls)
            · exact Or.inr h5
    · by_cases h2 : jsTrim m ∈ seen
      · rw [dedupGo_cons_dup m ls seen acc h1 h2] at h
        rcases dedupGo_sub ls seen acc l h with h3 | h3
        · exact Or.inl (List.mem_cons_of_mem m h3)
        · exact Or.inr h3
      · rw [dedupGo_cons_keep m ls seen acc h1 h2] at h
        rcases dedupGo_sub ls (jsTrim m :: seen) (m :: acc) l h with h3 | h3
        · exact Or.inl (List.mem_cons_of_mem m h3)
        · rcases List.mem_cons.mp h3 with h5 | h5
          · exact Or.inl (by rw [h5]; exact List.mem_cons_self m ls)
          · exact Or.inr h5

/-- On input already in normal form (nonblank trims pairwise distinct and
unseen, no two consecutive blanks, and a nonblank previously kept line before
any leading blank), the loop keeps every line. -/
theorem dedupGo_id : ∀ (ls seen acc : List (List Char)),
    List.Pairwise (fun x y => x ≠ [] → y ≠ [] → x ≠ y) (ls.map jsTrim) →
    List.Chain' (fun x y : List Char => x ≠ [] ∨ y ≠ []) (ls.map jsTrim) →
    (∀ l ∈ ls, jsTrim l ≠ [] → jsTrim l ∉ seen) →
    (∀ l₀, ls.head? = some l₀ → jsTrim l₀ = [] →
      ∃ a tl, acc = a :: tl ∧ jsTrim a ≠ []) →
    dedupGo ls seen acc = acc.reverse ++ ls
  | [], seen, acc, _, _, _, _ => by rw [dedupGo, List.append_nil]
  | l :: ls, seen, acc, hpw, hch, hseen, hacc => by
    rw [List.map_cons] at hpw hch
    by_cases ht : jsTrim l = []
    · obtain ⟨a, tl, rfl, ha⟩ := hacc l rfl ht
      rw [dedupGo_cons_blank l ls seen a tl ht, if_neg ha]
      rw [dedupGo_id ls seen (l :: a :: tl) hpw.of_cons
        (List.chain'_cons'.mp hch).2
        (fun m hm h2 => hseen m (List.mem_cons_of_mem l hm) h2)
        ?_]
      · simp
      · intro l₀ h0 hb
        cases ls with
        | nil => simp at h0
        | cons l₁ ls' =>
          simp only [List.head?_cons, Option.some.injEq] at h0
          subst h0
          rw [List.map_cons] at hch
          rcases (List.chain'_cons.mp hch).1 with hc | hc
          · exact absurd ht hc
          · exact absurd hb hc
    · have hns : jsTrim l ∉ seen := hseen l (List.mem_cons_self l ls) ht
      rw [dedupGo_cons_keep l ls seen acc ht hns]
      rw [dedupGo_id ls (jsTrim l :: seen) (l :: acc) hpw.of_cons
        (List.chain'_cons'.mp hch).2
        ?_ ?_]
      · simp
      · intro m hm h2
        simp only [List.mem_cons]
        push_neg
        refine ⟨?_, hseen m (List.mem_cons_of_mem l hm) h2⟩
        intro he
        exact (List.pairwise_cons.mp hpw).1 (jsTrim m)
          (List.mem_map_of_mem jsTrim hm) ht h2 he.symm
      · intro l₀ h0 hb
        exact ⟨l, acc, rfl, ht⟩

/-- The loop's output: nonblank trims are pairwise distinct, no two kept
lines in a row are blank, and the first kept line is nonblank. -/
theorem dedupGo_inv : ∀ (ls seen acc : List (List Char)),
    (∀ a ∈ acc, jsTrim a ≠ [] → jsTrim a ∈ seen) →
    List.Pairwise (fun x y => x ≠ [] → y ≠ [] → x ≠ y) (acc.map jsTrim) →
    List.Chain' (fun x y : List Char => x ≠ [] ∨ y ≠ []) (acc.map jsTrim) →
    (∀ a, acc.getLast? = some a → jsTrim a ≠ []) →
    List.Pairwise (fun x y => x ≠ [] → y ≠ [] → x ≠ y) ((dedupGo ls seen acc).map jsTrim) ∧
    List.Chain' (fun x y : List Char => x ≠ [] ∨ y ≠ []) ((dedupGo ls seen acc).map jsTrim) ∧
    (∀ a, (dedupGo ls seen acc).head? = some a → jsTrim a ≠ [])
  | [], seen, acc, hmem, hpw, hch, hlast => by
    rw [dedupGo]
    refine ⟨?_, ?_, ?_⟩
    · rw [List.map_reverse, List.pairwise_reverse]
      exact hpw.imp (fun {a b} h h1 h2 => (h h2 h1).symm)
    · rw [List.map_reverse, List.chain'_reverse]
      exact hch.imp (fun {a b} h => h.symm)
    · intro a ha
      rw [List.head?_reverse] at ha
      exact hlast a ha
  | l :: ls, seen, acc, hmem, hpw, hch, hlast => by
    by_cases ht : jsTrim l = []
    · cases acc with
      | nil =>
        rw [dedupGo_cons_blank_nil l ls seen ht]
        exact dedupGo_inv ls seen [] (by simp) (by simp) (by simp) (by simp)
      | cons prev tl =>
        rw [dedupGo_cons_blank l ls seen prev tl ht]
        by_cases hprev : jsTrim prev = []
        · rw [if_pos hprev]
          exact dedupGo_inv ls seen (prev :: tl) hmem hpw hch hlast
        · rw [if_neg hprev]
          refine dedupGo_inv ls seen (l :: prev :: tl) ?_ ?_ ?_ ?_
          · intro a ha h2
            rcases List.mem_cons.mp ha with h3 | h3
            · exact absurd (h3 ▸ ht) h2
            · exact hmem a h3 h2
          · rw [List.map_cons, List.pairwise_cons]
            exact ⟨fun y _ hy => absurd ht hy, hpw⟩
          · rw [List.map_cons, List.chain'_cons']
            refine ⟨?_, hch⟩
            intro y hy
            simp only [List.map_cons, List.head?_cons, Option.mem_def,
              Option.some.injEq] at hy
            exact Or.inr (hy ▸ hprev)
          · intro a ha
            rw [List.getLast?_cons_cons] at ha
            exact hlast a ha
    · by_cases hns : jsTrim l ∉ seen
      · rw [dedupGo_cons_keep l ls seen acc ht hns]
        refine dedupGo_inv ls (jsTrim l :: seen) (l :: acc) ?_ ?_ ?_ ?_
        · intro a ha h2
          rcases List.mem_cons.mp ha with h3 | h3
          · rw [h3]; exact List.mem_cons_self _ _
          · exact List.mem_cons_of_mem _ (hmem a h3 h2)
        · rw [List.map_cons, List.pairwise_cons]
          refine ⟨?_, hpw⟩
          intro y hy _ hy2 he
          obtain ⟨a, ha, rfl⟩ := List.mem_map.mp hy
          exact hns (he ▸ hmem a ha hy2)
        · rw [List.map_cons, List.chain'_cons']
          exact ⟨fun y _ => Or.inl ht, hch⟩
        · intro a ha
          cases acc with
          | nil =>
            simp only [List.getLast?_singleton, Option.some.injEq] at ha
            exact ha ▸ ht
          | cons b bs =>
            rw [List.getLast?_cons_cons] at ha
            exact hlast a ha
      · rw [dedupGo_cons_dup l ls seen acc ht (by simpa using hns)]
        exact dedupGo_inv ls seen acc hmem hpw hch hlast

/-- The nonblank trimmed lines kept by the loop are the first occurrences of
the distinct nonblank trimmed input lines, after those already seen. -/
theorem dedupGo_trims : ∀ (ls seen acc : List (List Char)),
    ((dedupGo ls seen acc).map jsTrim).filter (fun x => x ≠ []) =
      ((acc.reverse.map jsTrim).filter (fun x => x ≠ [])) ++
        firstDedupGo seen (((ls.map jsTrim).filter (fun x => x ≠ [])))
  | [], seen, acc => by
    rw [dedupGo, List.map_nil, List.filter_nil, firstDedupGo, List.append_nil]
  | l :: ls, seen, acc => by
    by_cases ht : jsTrim l = []
    · have hfilter : ((l :: ls).map jsTrim).filter (fun x => x ≠ []) =
          (ls.map jsTrim).filter (fun x => x ≠ []) := by
        rw [List.map_cons, List.filter_cons, if_neg (by simp [ht])]
      rw [hfilter]
      cases acc with
      | nil =>
        rw [dedupGo_cons_blank_nil l ls seen ht]
        exact dedupGo_trims ls seen []
      | cons prev tl =>
        rw [dedupGo_cons_blank l ls seen prev tl ht]
        by_cases hprev : jsTrim prev = []
        · rw [if_pos hprev]
          exact dedupGo_trims ls seen (prev :: tl)
        · rw [if_neg hprev]
          rw [dedupGo_trims ls seen (l :: prev :: tl)]
          congr 1
          rw [List.reverse_cons, List.map_append, List.filter_append]
          simp [ht]
    · by_cases hns : jsTrim l ∉ seen
      · rw [dedupGo_cons_keep l ls seen acc ht hns,
          dedupGo_trims ls (jsTrim l :: seen) (l :: acc)]
        rw [List.map_cons, List.filter_cons, if_pos (by simp [ht]), firstDedupGo,
          if_neg hns]
        rw [List.reverse_cons, List.map_append, List.filter_append]
        simp [ht]
      · rw [dedupGo_cons_dup l ls seen acc ht (by simpa using hns),
          dedupGo_trims ls seen acc]
        rw [List.map_cons, List.filter_cons, if_pos (by simp [ht]), firstDedupGo,
          if_pos (by simpa using hns)]

/-- Members of a `trimStartL` result are members of the input. -/
theorem mem_of_mem_trimStartL {c : Char} {l : List Char} (h : c ∈ trimStartL l) : c ∈ l := by
  have hsplit := List.takeWhile_append_dropWhile (p := isJsWS) (l := l)
  rw [← hsplit]
  exact List.mem_append_right _ h

/-- End-trimming a newline join whose last line is nonblank end-trims only
that last line. -/
theorem trimEndL_join_of_last (M : List (List Char)) (q : List Char)
    (hq : jsTrim q ≠ []) :
    trimEndL (joinNL (M ++ [q])) = joinNL (M ++ [trimEndL q]) := by
  have hq' : ¬ ∀ c ∈ q, isJsWS c = true := fun hall => hq ((jsTrim_eq_nil_iff q).mpr hall)
  cases M with
  | nil => rfl
  | cons m M' =>
    rw [joinNL_concat (m :: M') q (by simp),
      joinNL_concat (m :: M') (trimEndL q) (by simp)]
    have h1 : ¬ ∀ c ∈ ('\n' :: q), isJsWS c = true := fun hall =>
      hq' (fun c hc => hall c (List.mem_cons_of_mem _ hc))
    rw [show joinNL (m :: M') ++ '\n' :: q = joinNL (m :: M') ++ ('\n' :: q) from rfl,
      trimEndL_append_keep _ _ h1,
      show ('\n' :: q) = ['\n'] ++ q from rfl,
      trimEndL_append_keep ['\n'] q hq']
    rfl

/-- Splitting the trimmed join of a kept-lines list: the first line is
start-trimmed (same trim), the last nonblank line end-trimmed (same trim),
and at most one trailing blank line disappears — so the trims of the lines
are preserved up to that dropped blank. -/
theorem split_trim_join (p₁ : List Char) (P' : List (List Char))
    (hhead : jsTrim p₁ ≠ [])
    (hnl : ∀ l ∈ p₁ :: P', '\n' ∉ l)
    (hch : List.Chain' (fun x y : List Char => x ≠ [] ∨ y ≠ []) ((p₁ :: P').map jsTrim)) :
    ∃ q₁ Q', splitNL (jsTrim (joinNL (p₁ :: P'))) = q₁ :: Q' ∧
      jsTrim q₁ = jsTrim p₁ ∧
      ((q₁ :: Q').map jsTrim = (p₁ :: P').map jsTrim ∨
        (p₁ :: P').map jsTrim = (q₁ :: Q').map jsTrim ++ [[]]) := by
  have hp1ws : ¬ ∀ c ∈ p₁, isJsWS c = true := fun hall =>
    hhead ((jsTrim_eq_nil_iff p₁).mpr hall)
  have hS : trimStartL (joinNL (p₁ :: P')) = joinNL (trimStartL p₁ :: P') := by
    cases P' with
    | nil => rfl
    | cons a as =>
      rw [joinNL_cons_of_ne p₁ (a :: as) (by simp),
        joinNL_cons_of_ne (trimStartL p₁) (a :: as) (by simp),
        trimStartL_append_keep p₁ _ hp1ws]
  have hmain : jsTrim (joinNL (p₁ :: P')) = trimEndL (joinNL (trimStartL p₁ :: P')) := by
    rw [jsTrim, hS]
  have hheadt : jsTrim (trimStartL p₁) = jsTrim p₁ := jsTrim_trimStartL p₁
  have hnl' : ∀ l ∈ trimStartL p₁ :: P', '\n' ∉ l := by
    intro l hl
    rcases List.mem_cons.mp hl with h | h
    · subst h
      exact fun hx => hnl p₁ (List.mem_cons_self _ _) (mem_of_mem_trimStartL hx)
    · exact hnl l (List.mem_cons_of_mem _ h)
  have hchain' : List.Chain' (fun x y : List Char => x ≠ [] ∨ y ≠ [])
      ((trimStartL p₁ :: P').map jsTrim) := by
    rw [List.map_cons, hheadt, ← List.map_cons]
    exact hch
  obtain ⟨M, q, hMq⟩ : ∃ M q, trimStartL p₁ :: P' = M ++ [q] := by
    rcases List.eq_nil_or_concat (trimStartL p₁ :: P') with h | ⟨M, q, h⟩
    · exact absurd h (by simp)
    · exact ⟨M, q, by rw [h, List.concat_eq_append]⟩
  by_cases hq : jsTrim q = []
  · -- trailing blank line: it is absorbed by the final trim
    have hM : M ≠ [] := by
      intro h0
      rw [h0, List.nil_append] at hMq
      have : trimStartL p₁ = q := (List.cons.injEq _ _ _ _).mp hMq |>.1
      rw [← this, hheadt] at hq
      exact hhead hq
    obtain ⟨M', m, hM'⟩ := (List.eq_nil_or_concat M).resolve_left hM
    rw [List.concat_eq_append] at hM'
    have hm : jsTrim m ≠ [] := by
      have hlist : (trimStartL p₁ :: P').map jsTrim =
          M'.map jsTrim ++ [jsTrim m, jsTrim q] := by
        rw [hMq, hM']
        simp
      rw [hlist] at hchain'
      have h2 := (List.chain'_append.mp hchain').2.1
      rcases (List.chain'_cons.mp h2).1 with hc | hc
      · exact hc
      · exact absurd hq hc
    have hE0 : trimEndL (joinNL (M ++ [q])) = trimEndL (joinNL M) := by
      rw [joinNL_concat M q hM]
      apply trimEndL_append_drop
      intro c hc
      rcases List.mem_cons.mp hc with h | h
      · subst h; decide
      · exact (jsTrim_eq_nil_iff q).mp hq c h
    have htotal : jsTrim (joinNL (p₁ :: P')) = joinNL (M' ++ [trimEndL m]) := by
      rw [hmain, hMq, hE0, hM', trimEndL_join_of_last M' m hm]
    have hmem : ∀ l ∈ M' ++ [trimEndL m], l ∈ trimStartL p₁ :: P' ∨ l = trimEndL m := by
      intro l hl
      rcases List.mem_append.mp hl with h | h
      · refine Or.inl ?_
        rw [hMq, hM']
        exact List.mem_append_left _ (List.mem_append_left _ h)
      · exact Or.inr (by simpa using h)
    have hQ : splitNL (jsTrim (joinNL (p₁ :: P'))) = M' ++ [trimEndL m] := by
      rw [htotal]
      apply splitNL_joinNL
      · intro l hl
        rcases hmem l hl with h | h
        · exact hnl' l h
        · subst h
          intro hx
          have hmm : m ∈ trimStartL p₁ :: P' := by
            rw [hMq, hM']
            exact List.mem_append_left _ (List.mem_append_right _ (by simp))
          exact hnl' m hmm (mem_of_mem_trimEndL hx)
      · simp
    have hmapP : (trimStartL p₁ :: P').map jsTrim =
        M'.map jsTrim ++ [jsTrim m, []] := by
      rw [hMq, hM', ← hq]
      simp
    cases M' with
    | nil =>
      have h1 : trimStartL p₁ = m := by
        rw [hM', List.nil_append] at hMq
        exact ((List.cons.injEq _ _ _ _).mp hMq).1
      refine ⟨trimEndL m, [], by simpa using hQ, ?_, Or.inr ?_⟩
      · rw [jsTrim_trimEndL, ← h1, hheadt]
      · have : (p₁ :: P').map jsTrim = (trimStartL p₁ :: P').map jsTrim := by
          rw [List.map_cons, List.map_cons, hheadt]
        rw [this, hmapP]
        simp [jsTrim_trimEndL, ← h1, hheadt]
    | cons m₀ M₂ =>
      have h1 : m₀ = trimStartL p₁ := by
        rw [hM'] at hMq
        have : trimStartL p₁ :: P' = m₀ :: (M₂ ++ [m] ++ [q]) := by
          rw [hMq]; simp
        exact (((List.cons.injEq _ _ _ _).mp this).1).symm
      refine ⟨m₀, M₂ ++ [trimEndL m], by simpa using hQ, by rw [h1, hheadt], Or.inr ?_⟩
      have : (p₁ :: P').map jsTrim = (trimStartL p₁ :: P').map jsTrim := by
        rw [List.map_cons, List.map_cons, hheadt]
      rw [this, hmapP, h1]
      simp [jsTrim_trimEndL]
  · -- last line nonblank: only end-trimmed
    have htotal : jsTrim (joinNL (p₁ :: P')) = joinNL (M ++ [trimEndL q]) := by
      rw [hmain, hMq, trimEndL_join_of_last M q hq]
    have hQ : splitNL (jsTrim (joinNL (p₁ :: P'))) = M ++ [trimEndL q] := by
      rw [htotal]
      apply splitNL_joinNL
      · intro l hl
        rcases List.mem_append.mp hl with h | h
        · exact hnl' l (by rw [hMq]; exact List.mem_append_left _ h)
        · have : l = trimEndL q := by simpa using h
          subst this
          intro hx
          have hqm : q ∈ trimStartL p₁ :: P' := by
            rw [hMq]
            exact List.mem_append_right _ (by simp)
          exact hnl' q hqm (mem_of_mem_trimEndL hx)
      · simp
    cases M with
    | nil =>
      have h1 : trimStartL p₁ = q := by
        rw [List.nil_append] at hMq
        exact ((List.cons.injEq _ _ _ _).mp hMq).1
      have h2 : P' = [] := by
        rw [List.nil_append] at hMq
        exact ((List.cons.injEq _ _ _ _).mp hMq).2
      refine ⟨trimEndL q, [], by simpa using hQ, ?_, Or.inl ?_⟩
      · rw [jsTrim_trimEndL, ← h1, hheadt]
      · rw [h2]
        simp [jsTrim_trimEndL, ← h1, hheadt]
    | cons m₀ M₂ =>
      have h1 : m₀ = trimStartL p₁ := by
        have : trimStartL p₁ :: P' = m₀ :: (M₂ ++ [q]) := by rw [hMq]; simp
        exact (((List.cons.injEq _ _ _ _).mp this).1).symm
      have h2 : P' = M₂ ++ [q] := by
        have : trimStartL p₁ :: P' = m₀ :: (M₂ ++ [q]) := by rw [hMq]; simp
        exact ((List.cons.injEq _ _ _ _).mp this).2
      refine ⟨m₀, M₂ ++ [trimEndL q], by simpa using hQ, by rw [h1, hheadt], Or.inl ?_⟩
      rw [h2, h1]
      simp [jsTrim_trimEndL, hheadt]

/-- The kept-lines list produced by the dedup loop on a fresh run is
newline-free, starts with a nonblank line, has pairwise-distinct nonblank
trims and no two adjacent blank lines. -/
theorem dedup_props (x : List Char) (p₁ : List Char) (P' : List (List Char))
    (hP : dedupGo (splitNL x) [] [] = p₁ :: P') :
    jsTrim p₁ ≠ [] ∧ (∀ l ∈ p₁ :: P', '\n' ∉ l) ∧
      List.Pairwise (fun a b => a ≠ [] → b ≠ [] → a ≠ b) ((p₁ :: P').map jsTrim) ∧
      List.Chain' (fun a b : List Char => a ≠ [] ∨ b ≠ []) ((p₁ :: P').map jsTrim) := by
  have hinv := dedupGo_inv (splitNL x) [] []
    (fun a ha => absurd ha (List.not_mem_nil a))
    List.Pairwise.nil List.chain'_nil (fun a ha => by simp at ha)
  rw [hP] at hinv
  obtain ⟨hpw, hch, hhead0⟩ := hinv
  refine ⟨hhead0 p₁ rfl, ?_, hpw, hch⟩
  intro l hl
  rcases dedupGo_sub (splitNL x) [] [] l (by rw [hP]; exact hl) with h | h
  · exact nl_not_mem_splitNL x l h
  · simp at h

/-- C6: the simplified Duplicate Remover (`removeDuplicates` in the live
`duplicates.js`) is idempotent — applying it twice yields the same string as
applying it once, for every input. -/
theorem removeDuplicates_idem (x : List Char) :
    removeDuplicates (removeDuplicates x) = removeDuplicates x := by
  cases hP : dedupGo (splitNL x) [] [] with
  | nil =>
    have hx : removeDuplicates x = [] := by
      rw [removeDuplicates, hP]
      rfl
    rw [hx]
    rfl
  | cons p₁ P' =>
    obtain ⟨hhead, hnl, hpw, hch⟩ := dedup_props x p₁ P' hP
    obtain ⟨q₁, Q', hsplit, hq₁, hmap⟩ := split_trim_join p₁ P' hhead hnl hch
    have hRD : removeDuplicates x = jsTrim (joinNL (p₁ :: P')) := by
      rw [removeDuplicates, hP]
    have hsplit' : splitNL (removeDuplicates x) = q₁ :: Q' := by
      rw [hRD]
      exact hsplit
    have hpwQ : List.Pairwise (fun a b => a ≠ [] → b ≠ [] → a ≠ b)
        ((q₁ :: Q').map jsTrim) := by
      rcases hmap with h | h
      · rw [h]
        exact hpw
      · have hsub : List.Sublist ((q₁ :: Q').map jsTrim) ((p₁ :: P').map jsTrim) := by
          rw [h]
          exact List.sublist_append_left _ _
        exact List.Pairwise.sublist hsub hpw
    have hchQ : List.Chain' (fun a b : List Char => a ≠ [] ∨ b ≠ [])
        ((q₁ :: Q').map jsTrim) := by
      rcases hmap with h | h
      · rw [h]
        exact hch
      · have h2 : List.Chain' (fun a b : List Char => a ≠ [] ∨ b ≠ [])
            ((q₁ :: Q').map jsTrim ++ [[]]) := by
          rw [← h]
          exact hch
        exact (List.chain'_append.mp h2).1
    have hid := dedupGo_id (q₁ :: Q') [] [] hpwQ hchQ
      (fun l _ _ => List.not_mem_nil _)
      (fun l₀ h0 ht => by
        rw [List.head?_cons, Option.some_inj] at h0
        rw [← h0, hq₁] at ht
        exact absurd ht hhead)
    rw [List.reverse_nil, List.nil_append] at hid
    calc removeDuplicates (removeDuplicates x)
        = jsTrim (joinNL (dedupGo (splitNL (removeDuplicates x)) [] [])) := rfl
      _ = jsTrim (joinNL (q₁ :: Q')) := by rw [hsplit', hid]
      _ = jsTrim (joinNL (splitNL (jsTrim (joinNL (p₁ :: P'))))) := by rw [hsplit]
      _ = jsTrim (jsTrim (joinNL (p₁ :: P'))) := by rw [joinNL_splitNL]
      _ = jsTrim (joinNL (p₁ :: P')) := jsTrim_idem _
      _ = removeDuplicates x := hRD.symm

/-- C7 (amended): the live Duplicate Remover performs no section splitting at
all — it removes duplicate trimmed lines globally across the whole input, so
the nonblank line trims of its output are exactly the first-occurrence
deduplication of the nonblank line trims of the whole input. -/
theorem removeDuplicates_no_sections (x : List Char) :
    nonblankTrims (removeDuplicates x) = firstDedup (nonblankTrims x) := by
  have htr : ((dedupGo (splitNL x) [] []).map jsTrim).filter (fun l => l ≠ []) =
      firstDedupGo [] (((splitNL x).map jsTrim).filter (fun l => l ≠ [])) := by
    have h := dedupGo_trims (splitNL x) [] []
    rwa [List.reverse_nil, List.map_nil, List.filter_nil, List.nil_append] at h
  show ((splitNL (removeDuplicates x)).map jsTrim).filter (fun l => l ≠ []) =
    firstDedupGo [] (((splitNL x).map jsTrim).filter (fun l => l ≠ []))
  cases hP : dedupGo (splitNL x) [] [] with
  | nil =>
    have hx : removeDuplicates x = [] := by
      rw [removeDuplicates, hP]
      rfl
    rw [hP, List.map_nil, List.filter_nil] at htr
    rw [hx, ← htr]
    decide
  | cons p₁ P' =>
    obtain ⟨hhead, hnl, hpw, hch⟩ := dedup_props x p₁ P' hP
    obtain ⟨q₁, Q', hsplit, hq₁, hmap⟩ := split_trim_join p₁ P' hhead hnl hch
    have hRD : splitNL (removeDuplicates x) = q₁ :: Q' := by
      rw [removeDuplicates, hP]
      exact hsplit
    rw [hP] at htr
    rw [hRD, ← htr]
    rcases hmap with h | h
    · rw [h]
    · rw [h, List.filter_append]
      have hblank : List.filter (fun l => l ≠ []) [([] : List Char)] = [] := by decide
      rw [hblank, List.append_nil]

/-- C7 counterexample: an input of two marker-delimited sections each holding
the line `foo` once.  The legacy section splitter does yield two sections each
containing `foo` once, but the live remover keeps `foo` only once in total —
it deduplicates globally, not per section. -/
theorem removeDuplicates_sections_counterexample :
    (splitIntoSections twoSectionInput).length = 2 ∧
    (splitIntoSections twoSectionInput).map
      (fun sec => countLineOccurs sec ("foo".toList)) = [1, 1] ∧
    countLineOccurs twoSectionInput ("foo".toList) = 2 ∧
    countLineOccurs (removeDuplicates twoSectionInput) ("foo".toList) = 1 := by
  decide

end Scrape
